import Mathlib

/-
Verification of the CodeMXJ static-analysis core against its specification.

The analyzers under `src/analyzers` are Python classes operating on the syntax
trees produced by the `javalang` Java parser.  We shallowly embed them here:

* the javalang syntax tree is modelled by the inductive types below
  (`JNode`/`JForest` for statement/expression subtrees, plus structures for
  declarations); javalang sets every declared node attribute in `__init__`
  (possibly to `None`), so a Python `hasattr(node, attr)` test on a declared
  attribute is always true and is translated to `true`; optional attributes
  become `Option` values and Python truthiness of such a value is
  "is `some s` with `s` non-empty" for strings, "is `some`" for nodes,
  and "non-empty" for lists;
* each analyzer method becomes a Lean function; the mutable `self` state
  becomes an explicit state value threaded through;
* `networkx.DiGraph` is modelled by `DiGraph` below with the networkx
  semantics that `add_edge` inserts both endpoints as nodes and, when the
  edge already exists, updates its attributes in place.
-/

namespace CodeMXJ

/-- Python `str()` applied to an optional string: `None` renders as `"None"`. -/
def pyStr : Option String → String
  | none => "None"
  | some s => s

/-- Python `set.add` on a set modelled as a duplicate-free list. -/
def pySetAdd (l : List String) (x : String) : List String :=
  if x ∈ l then l else l ++ [x]

/-- Python `"sep".join(l)`. -/
def pyJoin (sep : String) : List String → String
  | [] => ""
  | [x] => x
  | x :: y :: xs => x ++ sep ++ pyJoin sep (y :: xs)

/-- Python `s.lower()` restricted to ASCII (identifiers in the analyzed Java
sources are ASCII, where Python and ASCII lowercasing agree). -/
def pyLower (s : String) : List Char := s.data.map Char.toLower

/-- Python substring containment `a in b` for strings, on char lists: `a`
occurs contiguously inside `b`. -/
def containsSub (a b : List Char) : Bool := decide (a <:+: b)

/-- Auxiliary splitter for `pySplitNl`, accumulating the current line in
reverse. -/
def pySplitNlAux : List Char → List Char → List (List Char)
  | [], cur => [cur.reverse]
  | c :: cs, cur =>
      if c = '\n' then cur.reverse :: pySplitNlAux cs []
      else pySplitNlAux cs (c :: cur)

/-- Python `content.split('\n')`: the maximal newline-free segments,
including empty ones (`"".split('\n') == ['']`). -/
def pySplitNl (s : String) : List String :=
  (pySplitNlAux s.data []).map (fun l => String.mk l)

mutual
/-- A javalang syntax-tree node below method level.  `inv` is a
`MethodInvocation` node carrying its `qualifier` attribute (`none` models
Python `None`), its `member` name, the rendered argument texts, and its child
subtrees; `other` is any other node kind with its children. -/
inductive JNode where
  | inv : Option String → String → List String → JForest → JNode
  | other : JForest → JNode

/-- A list of javalang child nodes. -/
inductive JForest where
  | nil : JForest
  | cons : JNode → JForest → JForest
end

mutual
/-- Depth-first, source-order collection of `MethodInvocation` nodes, as
produced by javalang's `Node.filter(MethodInvocation)`: a matching node is
yielded before its children are visited. -/
def JNode.invocations : JNode → List (Option String × String × List String)
  | .inv q m a cs => (q, m, a) :: cs.invocations
  | .other cs => cs.invocations

/-- Depth-first collection of `MethodInvocation` nodes of a forest. -/
def JForest.invocations : JForest → List (Option String × String × List String)
  | .nil => []
  | .cons n f => n.invocations ++ f.invocations
end

/-- A javalang `FormalParameter`: name and the `name` of its declared type. -/
structure FormalParameter where
  name : String
  typeName : String
deriving DecidableEq, Repr

/-- A javalang `FieldDeclaration`: declared type name, modifiers, and the
variable declarator names (the grammar guarantees at least one declarator, so
they are modelled as a head plus a tail). -/
structure FieldDeclaration where
  typeName : String
  modifiers : List String
  declarators : String × List String
deriving DecidableEq, Repr

/-- A javalang `ElementValuePair` of an annotation: `elem.name` and the
`value` attribute of `elem.value` (a literal's text). -/
structure ElementValuePair where
  name : String
  value : String
deriving DecidableEq, Repr

/-- A javalang `Annotation` node: its name and its optional `element` list
(`none` models Python `None`, `some []` an empty list; both are falsy). -/
structure AnnotationNode where
  name : String
  element : Option (List ElementValuePair)
deriving DecidableEq, Repr

/-- A javalang `MethodDeclaration`: name, parameters, optional return type
name (`none` for `void`), and the optional statement list of the body
(`none` for an absent body of an abstract/native method). -/
structure MethodDeclaration where
  name : String
  parameters : List FormalParameter
  return_type : Option String
  body : Option JForest

/-- A javalang `ClassDeclaration`: name, annotations, the optional name of
the `extends` reference, the names of the `implements` references (an absent
`implements` is modelled by `[]`, which Python iterates identically), and
the `fields` and `methods` member lists. -/
structure ClassDeclaration where
  name : String
  annotations : List AnnotationNode
  extends' : Option String
  implements : List String
  fields : List FieldDeclaration
  methods : List MethodDeclaration

/-- One directed edge of a `networkx.DiGraph`, with the `type` and `details`
attributes the relationship builder stores on it. -/
structure Edge where
  src : String
  tgt : String
  etype : String
  details : String
deriving DecidableEq, Repr

/-- A `networkx.DiGraph` restricted to what the analyzers use: insertion
ordered node and edge lists.  Every edge key `(src, tgt)` occurs at most once,
as maintained by `add_edge`. -/
structure DiGraph where
  nodes : List String
  edges : List Edge
deriving DecidableEq, Repr

/-- The empty `networkx.DiGraph`. -/
def DiGraph.empty : DiGraph := ⟨[], []⟩

/-- `networkx` `add_node`: appends the node unless already present. -/
def DiGraph.add_node (g : DiGraph) (n : String) : DiGraph :=
  if n ∈ g.nodes then g else { g with nodes := g.nodes ++ [n] }

/-- Edge insertion-or-update of `networkx` `add_edge` once both endpoints
are present: updates the attributes of an existing `(u, v)` edge in place or
appends a new edge. -/
def DiGraph.upsertEdge (g : DiGraph) (u v ty d : String) : DiGraph :=
  if g.edges.any (fun e => e.src == u && e.tgt == v) then
    { g with edges := g.edges.map (fun e =>
        if e.src == u && e.tgt == v then { e with etype := ty, details := d } else e) }
  else
    { g with edges := g.edges ++ [⟨u, v, ty, d⟩] }

/-- `networkx` `add_edge u v type details`: inserts both endpoints as nodes,
then either updates the attributes of an existing `(u, v)` edge in place or
appends a new edge. -/
def DiGraph.add_edge (g : DiGraph) (u v ty d : String) : DiGraph :=
  DiGraph.upsertEdge ((g.add_node u).add_node v) u v ty d

namespace CallGraphAnalyzer

/-- Mutable state of a `CallGraphAnalyzer` instance: `self.graph`,
`self.methods` (a set, modelled as a duplicate-free list) and
`self.current_class`. -/
structure State where
  graph : DiGraph
  methods : List String
  current_class : Option String
deriving Repr

/-- State of a freshly constructed `CallGraphAnalyzer`. -/
def State.init : State := ⟨DiGraph.empty, [], none⟩

/-- Embedding of `CallGraphAnalyzer._analyze_method_body`.  In the source,
`body` is the plain Python list that javalang stores in
`MethodDeclaration.body`; Python lists have no `filter` method, so the first
expression of the `try` block, `body.filter(javalang.tree.MethodInvocation)`,
raises `AttributeError` before any iteration happens.  The enclosing
`except Exception` catches it and only prints a warning, so the analyzer
state is returned unchanged: no callee is recorded and no edge is added. -/
def analyze_method_body (st : State) (_body : JForest) (_current_method : String) :
    State :=
  st

/-- Embedding of `CallGraphAnalyzer._analyze_methods`: records the identifier
`currentClass "." name` of every declared method and, when the body is truthy
(a non-empty statement list), runs `_analyze_method_body` on it. -/
def analyze_methods (st : State) (c : ClassDeclaration) : State :=
  c.methods.foldl
    (fun st m =>
      let current_method := pyStr st.current_class ++ "." ++ m.name
      let st := { st with methods := pySetAdd st.methods current_method }
      match m.body with
      | some (JForest.cons n f) => analyze_method_body st (JForest.cons n f) current_method
      | _ => st)
    st

/-- Embedding of `CallGraphAnalyzer._analyze_classes`: iterates the class
declarations of the tree in depth-first filter order, setting
`self.current_class` before analyzing each class's methods. -/
def analyze_classes (st : State) (classes : List ClassDeclaration) : State :=
  classes.foldl (fun st c => analyze_methods { st with current_class := some c.name } c) st

/-- Embedding of `CallGraphAnalyzer.analyze_calls` on an already parsed tree
(the surrounding `try` re-raises parse failures, which belong to the external
parser and are not modelled).  Note that, unlike `analyze_class_dependencies`,
it does not reset `self.graph` or `self.methods` before analyzing.  Returns
the final state together with the returned `self.graph`. -/
def analyze_calls (st : State) (classes : List ClassDeclaration) : State × DiGraph :=
  let st := analyze_classes st classes
  (st, st.graph)

/-- Embedding of `CallGraphAnalyzer._is_primitive_or_common_type`. -/
def is_primitive_or_common_type (type_name : String) : Bool :=
  ["int", "long", "float", "double", "boolean", "char", "byte", "short"].contains type_name
    || ["String", "Integer", "Long", "Float", "Double", "Boolean", "Character", "Byte",
        "Short"].contains type_name

/-- Embedding of `CallGraphAnalyzer._is_composition_relationship`: a field is
a composition when it carries the `final` modifier. -/
def is_composition_relationship (f : FieldDeclaration) : Bool :=
  f.modifiers.any (fun m => m == "final")

/-- Embedding of `CallGraphAnalyzer._analyze_field_relationships` for one
class.  `hasattr(field.type, 'name')` is always true for javalang field types
(both `BasicType` and `ReferenceType` declare `name`). -/
def analyze_field_relationships (g : DiGraph) (c : ClassDeclaration) : DiGraph :=
  c.fields.foldl
    (fun g f =>
      if is_primitive_or_common_type f.typeName then g
      else
        let g := g.add_node f.typeName
        if is_composition_relationship f then
          g.add_edge c.name f.typeName "Composition"
            (c.name ++ " composition with " ++ f.typeName)
        else
          g.add_edge c.name f.typeName "Association"
            (c.name ++ " association with " ++ f.typeName))
    g

/-- Embedding of `CallGraphAnalyzer._analyze_method_relationships` for one
class: parameter types and non-`void` return types that are not primitive or
common produce `Association` edges. -/
def analyze_method_relationships (g : DiGraph) (c : ClassDeclaration) : DiGraph :=
  c.methods.foldl
    (fun g m =>
      let g := m.parameters.foldl
        (fun g p =>
          if is_primitive_or_common_type p.typeName then g
          else
            (g.add_node p.typeName).add_edge c.name p.typeName "Association"
              (c.name ++ " uses " ++ p.typeName))
        g
      match m.return_type with
      | some rt =>
          if is_primitive_or_common_type rt then g
          else
            (g.add_node rt).add_edge c.name rt "Association" (c.name ++ " returns " ++ rt)
      | none => g)
    g

/-- Lines 70-71 of `call_graph.py`: add the class as a node when missing. -/
def class_node_step (g : DiGraph) (c : ClassDeclaration) : DiGraph :=
  if c.name ∈ g.nodes then g else g.add_node c.name

/-- Lines 73-78 of `call_graph.py`: the `Inheritance` edge to a truthy
`extends` reference. -/
def extends_step (g : DiGraph) (c : ClassDeclaration) : DiGraph :=
  match c.extends' with
  | some parent =>
      (g.add_node parent).add_edge c.name parent "Inheritance"
        (c.name ++ " extends " ++ parent)
  | none => g

/-- Lines 80-86 of `call_graph.py`: one `Implementation` edge per
implemented interface. -/
def implements_step (g : DiGraph) (c : ClassDeclaration) : DiGraph :=
  c.implements.foldl
    (fun g i =>
      (g.add_node i).add_edge c.name i "Implementation"
        (c.name ++ " implements " ++ i))
    g

/-- One iteration of the class loop of
`CallGraphAnalyzer._analyze_class_relationships`, applying the sequential
graph mutations of the loop body in program order: class node, inheritance
edge, implementation edges, field relationships, method relationships. -/
def class_relationship_step (g : DiGraph) (c : ClassDeclaration) : DiGraph :=
  analyze_method_relationships
    (analyze_field_relationships (implements_step (extends_step (class_node_step g c) c) c) c)
    c

/-- Embedding of `CallGraphAnalyzer._analyze_class_relationships`: the class
loop over the declarations of the tree in depth-first filter order. -/
def analyze_class_relationships (g : DiGraph) (classes : List ClassDeclaration) : DiGraph :=
  classes.foldl class_relationship_step g

/-- Embedding of `CallGraphAnalyzer.analyze_class_dependencies` on an already
parsed tree: resets `self.graph` to a fresh `DiGraph` and rebuilds it from the
class relationships; returns the final state and the returned graph. -/
def analyze_class_dependencies (st : State) (classes : List ClassDeclaration) :
    State × DiGraph :=
  let g := analyze_class_relationships DiGraph.empty classes
  ({ st with graph := g }, g)

/-- Successor nodes of `u` in the graph (targets of edges leaving `u`), the
adjacency `networkx` path search traverses. -/
def successors (g : DiGraph) (u : String) : List String :=
  (g.edges.filter (fun e => e.src == u)).map (fun e => e.tgt)

/-- Embedding of `networkx.all_simple_paths` by depth-first search: all paths
from `u` to `v` whose vertices are pairwise distinct and avoid `visited`,
with at most `fuel` vertices.  `nx.all_simple_paths` bounds path length by
the node count, which `fuel = g.nodes.length` reproduces at the call site. -/
def simplePathsAux (g : DiGraph) : Nat → String → String → List String → List (List String)
  | 0, _, _, _ => []
  | Nat.succ fuel, u, v, visited =>
      if u = v then [[u]]
      else
        ((successors g u).filter (fun w => ¬ (w ∈ u :: visited))).flatMap
          (fun w => (simplePathsAux g fuel w v (u :: visited)).map (fun p => u :: p))

/-- All simple paths of `g` from `u` to `v`, as `nx.all_simple_paths(g, u, v)`. -/
def all_simple_paths (g : DiGraph) (u v : String) : List (List String) :=
  simplePathsAux g g.nodes.length u v []

/-- Lookup of `graph[u][v]['type']`: the `type` attribute of the unique
`(u, v)` edge (the call sites only look up edges that lie on a discovered
path, so the lookup always succeeds; the default is never reached). -/
def edge_type_at (g : DiGraph) (u v : String) : String :=
  ((g.edges.find? (fun e => e.src == u && e.tgt == v)).map (fun e => e.etype)).getD ""

/-- Check of `get_dependency_statistics` that a discovered path consists only
of `Inheritance` relationships. -/
def pathAllInheritance (g : DiGraph) (p : List String) : Bool :=
  (p.zip p.tail).all (fun q => edge_type_at g q.1 q.2 == "Inheritance")

/-- Embedding of the `max_inheritance_depth` computation of
`CallGraphAnalyzer.get_dependency_statistics`: for every ordered pair of
distinct nodes, enumerate all simple paths and take the maximum `len(path)-1`
over those whose edges are all of type `Inheritance`, starting from `0`. -/
def max_inheritance_depth (g : DiGraph) : Nat :=
  g.nodes.foldl
    (fun acc u =>
      g.nodes.foldl
        (fun acc v =>
          if u ≠ v then
            (all_simple_paths g u v).foldl
              (fun acc p => if pathAllInheritance g p then max acc (p.length - 1) else acc)
              acc
          else acc)
        acc)
    0

/-- Result record of `CallGraphAnalyzer.get_dependency_statistics`.  Python's
float division is modelled exactly over `ℚ`. -/
structure DependencyStats where
  total_classes : Nat
  total_dependencies : Nat
  avg_dependencies : ℚ
  max_inheritance_depth : Nat
deriving Repr

/-- Embedding of `CallGraphAnalyzer.get_dependency_statistics`. -/
def get_dependency_statistics (g : DiGraph) : DependencyStats where
  total_classes := g.nodes.length
  total_dependencies := g.edges.length
  avg_dependencies :=
    if 0 < g.nodes.length then (g.edges.length : ℚ) / (g.nodes.length : ℚ) else 0
  max_inheritance_depth := max_inheritance_depth g

end CallGraphAnalyzer

namespace SequenceDiagramGenerator

/-- One interaction dict appended by
`SequenceDiagramGenerator._analyze_method_body`.  Argument texts are stored
already rendered, as `_extract_arguments` renders them via `str`. -/
structure Interaction where
  from' : String
  to' : String
  message : String
  arguments : List String
deriving DecidableEq, Repr

/-- Mutable state of a `SequenceDiagramGenerator`: `self.interactions` and
`self.current_class` (the external PlantUML client field is not modelled). -/
structure State where
  interactions : List Interaction
  current_class : Option String
deriving DecidableEq, Repr

/-- State of a freshly constructed `SequenceDiagramGenerator`. -/
def State.init : State := ⟨[], none⟩

/-- The `MethodInvocation` nodes inspected by
`SequenceDiagramGenerator._analyze_method_body`: with a falsy body (`None` or
an empty statement list) the method returns early with no invocation;
otherwise `method_node.filter(MethodInvocation)` yields the invocations of
the method subtree in depth-first source order (in a Java method they all
live inside the body). -/
def methodInvocations (m : MethodDeclaration) : List (Option String × String × List String) :=
  match m.body with
  | none => []
  | some JForest.nil => []
  | some f => f.invocations

/-- Embedding of `SequenceDiagramGenerator._analyze_method_body`: one
interaction per discovered invocation, with `to` the qualifier text when the
`qualifier` attribute is truthy (a non-empty string) and the current class
otherwise.  `hasattr(node, 'qualifier')` and `hasattr(node, 'member')` are
always true for javalang `MethodInvocation` nodes and are inlined; the
`current_class` object stored in the dict is rendered through `pyStr`. -/
def analyze_method_body (st : State) (m : MethodDeclaration) : State :=
  (methodInvocations m).foldl
    (fun st inv =>
      let target_class :=
        match inv.1 with
        | some q => if q ≠ "" then q else pyStr st.current_class
        | none => pyStr st.current_class
      { st with interactions :=
          st.interactions ++ [⟨pyStr st.current_class, target_class, inv.2.1, inv.2.2⟩] })
    st

/-- The fixed header lines of the generated PlantUML text. -/
def header : List String :=
  ["@startuml",
   "skinparam sequenceMessageAlign center",
   "skinparam responseMessageBelowArrow true",
   "skinparam maxMessageSize 100",
   "skinparam sequence \x7b",
   "    ArrowColor DeepSkyBlue",
   "    LifeLineBorderColor blue",
   "    ParticipantBorderColor DarkBlue",
   "    ParticipantBackgroundColor LightBlue",
   "    ParticipantFontStyle bold",
   "\x7d"]

/-- The participant set of `_generate_sequence_diagram` (always containing
the current class), sorted as Python `sorted` sorts strings. -/
def participants (current_class : String) (ints : List Interaction) : List String :=
  ((current_class :: ints.flatMap (fun i => [i.from', i.to'])).dedup).mergeSort
    (fun a b => a ≤ b)

/-- Embedding of `SequenceDiagramGenerator._generate_sequence_diagram`,
producing the diagram text returned to the caller (the subsequent image
fetch is an external network call outside the modelled core). -/
def generate_sequence_diagram (current_class : String) (ints : List Interaction) : String :=
  let diagram := header
  let diagram := diagram ++ (participants current_class ints).map
    (fun p => "participant \"" ++ p ++ "\" as " ++ p)
  let diagram := diagram ++ ints.map
    (fun i =>
      let args_str :=
        if i.arguments ≠ [] then "(" ++ pyJoin ", " i.arguments ++ ")" else ""
      i.from' ++ " -> " ++ i.to' ++ ": " ++ i.message ++ args_str)
  let diagram :=
    if ints = [] then
      diagram ++ ["note over " ++ current_class ++ ": No method calls found"]
    else diagram
  pyJoin "\n" (diagram ++ ["@enduml"])

/-- The scan of `analyze_method_calls`: classes in depth-first filter order;
within a class, the first method whose name equals the target (then `break`);
the outer loop breaks as soon as a class contained a match. -/
def findMethod : List ClassDeclaration → String → Option (ClassDeclaration × MethodDeclaration)
  | [], _ => none
  | c :: cs, name =>
      match c.methods.find? (fun m => m.name == name) with
      | some m => some (c, m)
      | none => findMethod cs name

/-- The message of the `ValueError` raised when no method matches. -/
def notFoundMsg (method_name : String) : String :=
  "Method \x27" ++ method_name ++ "\x27 not found in any class"

/-- Embedding of `SequenceDiagramGenerator.analyze_method_calls` from the
point where the input is parsed (pre-processing, validation of the raw text
and the javalang parse belong to the external parser boundary; of the two
emptiness checks the method-name one is kept, an empty raw text is rejected
before parsing).  The prior instance state `_self` is ignored because lines
104-105 of the source reset `self.interactions` and `self.current_class`
before scanning.  On success the final state and the generated diagram text
are returned; every failure is a raised `ValueError`, modelled as
`Except.error` with the raised message, and carries no diagram text. -/
def analyze_method_calls (_self : State) (classes : List ClassDeclaration)
    (method_name : String) : Except String (State × String) :=
  if method_name = "" then Except.error "Code and method name must not be empty"
  else
    let st : State := { interactions := [], current_class := none }
    match findMethod classes method_name with
    | none => Except.error (notFoundMsg method_name)
    | some (c, m) =>
        let st := { st with current_class := some c.name }
        let st := analyze_method_body st m
        Except.ok (st, generate_sequence_diagram (pyStr st.current_class) st.interactions)

end SequenceDiagramGenerator

namespace JavaCodeParser

/-- The `JavaClass` record of `analyzers/code_parser.py`. -/
structure JavaClass where
  name : String
  methods : List String
  fields : List String
  extends' : Option String
  implements : List String
deriving DecidableEq, Repr

/-- Embedding of `JavaCodeParser.parse_code` on an already parsed tree: one
record per class declaration in depth-first filter order, methods by name,
one field entry per field declaration holding only the name of its first
declarator (`f.declarators[0].name`). -/
def parse_code (classes : List ClassDeclaration) : List JavaClass :=
  classes.map (fun c =>
    ⟨c.name, c.methods.map (fun m => m.name), c.fields.map (fun f => f.declarators.1),
      c.extends', c.implements⟩)

end JavaCodeParser

namespace LegacyTableAnalyzer

/-- The `LegacyTableUsage` record of `analyzers/legacy_table_analyzer.py`. -/
structure LegacyTableUsage where
  table_name : String
  system : String
  file_path : String
  class_name : String
  method_name : String
  usage_type : String
deriving DecidableEq, Repr

/-- The `self.legacy_systems` configuration, in dict insertion order. -/
def legacy_systems : List (String × List String) :=
  [("CRPS", ["CRPS_CUSTOMER", "CRPS_ACCOUNT", "CRPS_PORTFOLIO"]),
   ("CRIF", ["CRIF_MEMBER", "CRIF_RECORD", "CRIF_HISTORY"]),
   ("GNAT", ["GNAT_NAME", "GNAT_ADDRESS", "GNAT_TELEPHONE"]),
   ("Globestar", ["GLOBESTAR_TRANSACTION", "GLOBESTAR_ACCOUNT"]),
   ("Triumph", ["TRIUMPH_DATA", "TRIUMPH_HISTORY"]),
   ("CARS", ["CARS_RECORD", "CARS_TRANSACTION"]),
   ("MNS", ["MNS_NOTIFICATION", "MNS_TEMPLATE"]),
   ("CARE", ["CARE_CASE", "CARE_INTERACTION"])]

/-- Embedding of `LegacyTableAnalyzer._get_system_for_table`: the first
configured system one of whose table names is a prefix of `table_name`,
`none` when there is no such system. -/
def get_system_for_table (table_name : String) : Option String :=
  (legacy_systems.find? (fun st => st.2.any (fun t => t.data.isPrefixOf table_name.data))).map
    (fun st => st.1)

/-- Embedding of `LegacyTableAnalyzer._has_annotation` (named without the
trailing noun): `hasattr(a, 'name')` is always true for javalang annotation
nodes. -/
def has_annot (annotations : List AnnotationNode) (nm : String) : Bool :=
  annotations.any (fun a => a.name == nm)

/-- Python truthiness of the `element` attribute: `None` and the empty list
are falsy and contribute no element to scan. -/
def elementTruthy : Option (List ElementValuePair) → List ElementValuePair
  | none => []
  | some es => es

/-- Embedding of `LegacyTableAnalyzer._get_table_name_from_annotation`: scan
the annotations in order; for each `Table` annotation with a truthy `element`
list, return the value of the first element named `name` with a truthy value;
otherwise keep scanning the remaining annotations. -/
def get_table_name_from_annots (annotations : List AnnotationNode) : Option String :=
  annotations.findSome? (fun a =>
    if a.name == "Table" then
      ((elementTruthy a.element).find? (fun e => e.name == "name" && e.value != "")).map
        (fun e => e.value)
    else none)

/-- Embedding of `LegacyTableAnalyzer._add_table_usage`: a record is appended
only when `_get_system_for_table` finds a system for the table name. -/
def add_table_usage (usages : List LegacyTableUsage)
    (table_name file_path class_name method_name usage_type : String) :
    List LegacyTableUsage :=
  match get_system_for_table table_name with
  | some system =>
      usages ++ [⟨table_name, system, file_path, class_name, method_name, usage_type⟩]
  | none => usages

/-- Embedding of `LegacyTableAnalyzer._analyze_entity_annotations`: for every
class declaration carrying an `Entity` annotation whose annotations yield a
table name, call `_add_table_usage` with the literal arguments of line 58 of
the source: the class name is passed in the `class_name` position, the string
`"Entity Class"` in the `method_name` position and `"JPA Entity"` in the
`usage_type` position. -/
def analyze_entity_annots (usages : List LegacyTableUsage) (file_path : String)
    (classes : List ClassDeclaration) : List LegacyTableUsage :=
  classes.foldl
    (fun usages c =>
      if has_annot c.annotations "Entity" then
        match get_table_name_from_annots c.annotations with
        | some table_name =>
            add_table_usage usages table_name file_path c.name "Entity Class" "JPA Entity"
        | none => usages
      else usages)
    usages

end LegacyTableAnalyzer

namespace DemographicPatternAnalyzer

/-- The `DemographicMatch` record of
`analyzers/demographic_pattern_analyzer.py`. -/
structure DemographicMatch where
  category : String
  field_name : String
  file_path : String
  line_number : Nat
  matched_text : String
deriving DecidableEq, Repr

/-- Embedding of `DemographicPatternAnalyzer.analyze_file`.  A compiled
regular expression is modelled as a matcher `String → List String` returning,
in order, the texts `match.group()` of the matches `re.finditer` yields on
one line; the configuration dict becomes the ordered `(category, matcher)`
list.  Lines are `content.split('\n')` and line numbers count from 1. -/
def analyze_file (patterns : List (String × (String → List String)))
    (matches0 : List DemographicMatch) (file_path content : String) :
    List DemographicMatch :=
  (pySplitNl content).enum.foldl
    (fun ms p =>
      patterns.foldl
        (fun ms cp =>
          (cp.2 p.2).foldl
            (fun ms g => ms ++ [⟨cp.1, g, file_path, p.1 + 1, g⟩])
            ms)
        ms)
    matches0

end DemographicPatternAnalyzer

namespace IntegrationPatternAnalyzer

/-- The `PatternMatch` record of `analyzers/integration_pattern_analyzer.py`. -/
structure PatternMatch where
  pattern_type : String
  pattern_name : String
  file_path : String
  line_number : Nat
  matched_text : String
deriving DecidableEq, Repr

/-- Embedding of `IntegrationPatternAnalyzer.analyze_file`, with the
two-level configuration dict modelled as an ordered list of
`(pattern_type, (pattern_name, matcher) list)` pairs; matchers model
`re.finditer` as in the demographic scanner. -/
def analyze_file (patterns : List (String × List (String × (String → List String))))
    (matches0 : List PatternMatch) (file_path content : String) : List PatternMatch :=
  (pySplitNl content).enum.foldl
    (fun ms p =>
      patterns.foldl
        (fun ms tp =>
          tp.2.foldl
            (fun ms np =>
              (np.2 p.2).foldl
                (fun ms g => ms ++ [⟨tp.1, np.1, file_path, p.1 + 1, g⟩])
                ms)
            ms)
        ms)
    matches0

end IntegrationPatternAnalyzer

namespace DemographicsAnalyzer

/-- The `DemographicUsage` record of `analyzers/demographics_analyzer.py`. -/
structure DemographicUsage where
  field_name : String
  category : String
  file_path : String
  class_name : String
  method_name : String
  usage_type : String
deriving DecidableEq, Repr

/-- The `self.demographic_fields` configuration, in dict insertion order. -/
def demographic_fields : List (String × List String) :=
  [("Personal",
    ["customerId", "embossedName", "companyEmbossedName", "gender", "dateOfBirth", "dob",
     "nationality", "maritalStatus", "annualIncome", "assets", "employer",
     "memberSinceDate"]),
   ("Government IDs", ["govId", "governmentId", "ssn", "passport", "drivingLicense"]),
   ("Business", ["businessDbaName", "businessLegalName", "nonProfitIndicator"]),
   ("Address",
    ["address", "homeAddress", "businessAddress", "alternateAddress", "temporaryAddress",
     "otherAddress", "additionalAddress"]),
   ("Phone",
    ["phone", "homePhone", "businessPhone", "mobilePhone", "alternatePhone", "faxNumber",
     "attorneyPhone"]),
   ("Email", ["email", "servicingEmail", "eStatementEmail", "businessEmail"]),
   ("Preferences",
    ["preferenceLanguageCode", "languagePreference", "preferredLanguage"])]

/-- Embedding of `DemographicsAnalyzer._check_demographic_field`: for every
configured `(category, field)` pair with `field.lower()` a substring of
`field_name.lower()`, append one usage record carrying the identifier and
the category. -/
def check_demographic_field (usages : List DemographicUsage)
    (field_name file_path class_name method_name usage_type : String) :
    List DemographicUsage :=
  demographic_fields.foldl
    (fun us cf =>
      cf.2.foldl
        (fun us f =>
          if containsSub (pyLower f) (pyLower field_name) then
            us ++ [⟨field_name, cf.1, file_path, class_name, method_name, usage_type⟩]
          else us)
        us)
    usages

/-- Embedding of `DemographicsAnalyzer._analyze_method_parameters` on the
corpus model: `tree.filter(MethodDeclaration)` yields the methods of the
classes in depth-first order and `_get_parent_class` recovers the enclosing
class name from the filter path. -/
def analyze_method_parameters (usages : List DemographicUsage) (file_path : String)
    (classes : List ClassDeclaration) : List DemographicUsage :=
  classes.foldl
    (fun us c =>
      c.methods.foldl
        (fun us m =>
          m.parameters.foldl
            (fun us p => check_demographic_field us p.name file_path c.name m.name "Parameter")
            us)
        us)
    usages

end DemographicsAnalyzer

namespace CallGraphAnalyzer

/-- Proposition that the graph holds an edge from `x` to `y` of any kind. -/
def HasEdge (g : DiGraph) (x y : String) : Prop :=
  ∃ e ∈ g.edges, e.src = x ∧ e.tgt = y

/-- Proposition that the graph holds an edge from `x` to `y` whose stored
kind is `Inheritance`. -/
def InhEdge (g : DiGraph) (x y : String) : Prop :=
  ∃ e ∈ g.edges, e.src = x ∧ e.tgt = y ∧ e.etype = "Inheritance"

/-- Graph invariant: every node referenced by an edge exists as a node. -/
def Closed (g : DiGraph) : Prop :=
  ∀ e ∈ g.edges, e.src ∈ g.nodes ∧ e.tgt ∈ g.nodes

/-- Graph invariant: each ordered pair `(src, tgt)` carries at most one
edge, as `add_edge` maintains. -/
def EdgeKeysNodup (g : DiGraph) : Prop :=
  (g.edges.map (fun e => (e.src, e.tgt))).Nodup

/-- A simple path through `Inheritance` edges: non-empty, duplicate-free,
inside the node set, with consecutive vertices joined by inheritance edges. -/
def SimpleInhPath (g : DiGraph) (p : List String) : Prop :=
  p ≠ [] ∧ p.Nodup ∧ (∀ x ∈ p, x ∈ g.nodes) ∧ List.Chain' (InhEdge g) p

/-- The targets of the inheritance edges leaving `u` (the adjacency of the
inheritance subgraph). -/
def inhSuccessors (g : DiGraph) (u : String) : List String :=
  (g.edges.filter (fun e => e.src == u && e.etype == "Inheritance")).map (fun e => e.tgt)

/-- Modelled from the spec: the "linear inheritance-depth walk per node"
named by section 4.3 as an equivalent-result optimization of the exhaustive
simple-path enumeration (the spec premises it on the inheritance subgraph
being a forest, i.e. single inheritance): starting from a node, repeatedly
follow the unique outgoing inheritance edge, stopping at a node without one
or at a node already visited, and count the edges walked. -/
def inh_walk (g : DiGraph) : Nat → String → List String → Nat
  | 0, _, _ => 0
  | Nat.succ fuel, u, visited =>
      match (inhSuccessors g u).head? with
      | none => 0
      | some w => if w ∈ visited then 0 else inh_walk g fuel w (w :: visited) + 1

/-- Modelled from the spec: the maximum linear inheritance-walk depth over
all nodes of the graph. -/
def max_linear_inheritance_depth (g : DiGraph) : Nat :=
  g.nodes.foldl (fun acc u => max acc (inh_walk g g.nodes.length u [u])) 0

/-- The flattened list of depth candidates the nested loops of
`get_dependency_statistics` take the maximum over: one `len(path) - 1` per
all-inheritance simple path between an ordered pair of distinct nodes. -/
def inhDepthCandidates (g : DiGraph) : List Nat :=
  g.nodes.flatMap (fun u =>
    g.nodes.flatMap (fun v =>
      if u ≠ v then
        ((all_simple_paths g u v).filter (pathAllInheritance g)).map (fun p => p.length - 1)
      else []))

end CallGraphAnalyzer

section Examples

/-- A `MethodInvocation` node for the call `helper.call()`. -/
def exInvocation : JNode := JNode.inv (some "helper") "call" [] JForest.nil

/-- The body statement list `{ helper.call(); }`: one expression statement
wrapping the invocation. -/
def exBody : JForest :=
  JForest.cons (JNode.other (JForest.cons exInvocation JForest.nil)) JForest.nil

/-- The method `void m() { helper.call(); }`. -/
def exMethodM : MethodDeclaration := ⟨"m", [], none, some exBody⟩

/-- The class `class A { void m() { helper.call(); } }`. -/
def exClassA : ClassDeclaration := ⟨"A", [], none, [], [], [exMethodM]⟩

/-- The class `class B { void n() { helper.call(); } }`. -/
def exClassB : ClassDeclaration := ⟨"B", [], none, [], [], [⟨"n", [], none, some exBody⟩]⟩

/-- The class `class Dog extends Animal implements Runnable
{ void bark() { helper.call(); } }`. -/
def dogClass : ClassDeclaration :=
  ⟨"Dog", [], some "Animal", ["Runnable"], [], [⟨"bark", [], none, some exBody⟩]⟩

/-- A class whose single field statement declares three variables:
`class M { int a, b, c; }`. -/
def multiFieldClass : ClassDeclaration :=
  ⟨"M", [], none, [], [⟨"int", [], ("a", ["b", "c"])⟩], []⟩

/-- An entity class `@Entity @Table(name = "MY_TABLE") class MyEntity {}`
whose table name matches no configured legacy table. -/
def exEntityClass : ClassDeclaration :=
  ⟨"MyEntity", [⟨"Entity", none⟩, ⟨"Table", some [⟨"name", "MY_TABLE"⟩]⟩], none, [], [], []⟩

/-- An entity class `@Entity @Table(name = "CRPS_CUSTOMER") class
CustomerEntity {}` whose table name is a configured CRPS table. -/
def exEntityClassCRPS : ClassDeclaration :=
  ⟨"CustomerEntity", [⟨"Entity", none⟩, ⟨"Table", some [⟨"name", "CRPS_CUSTOMER"⟩]⟩],
   none, [], [], []⟩

/-- The class `class B extends A { A x; }`: the field of type `A` makes the
relationship builder overwrite the `(B, A)` edge kind. -/
def cexClassB5 : ClassDeclaration := ⟨"B", [], some "A", [], [⟨"A", [], ("x", [])⟩], []⟩

/-- The class `class B extends A {}` with no other relationship to `A`. -/
def wClassB5 : ClassDeclaration := ⟨"B", [], some "A", [], [], []⟩

/-- A class `class X { void f() {} }` for method-scan examples. -/
def wClassX : ClassDeclaration := ⟨"X", [], none, [], [], [⟨"f", [], none, some JForest.nil⟩]⟩

/-- A class `class Y { void g() {} void f() {} }` for method-scan examples. -/
def wClassY : ClassDeclaration :=
  ⟨"Y", [], none, [], [],
   [⟨"g", [], none, some JForest.nil⟩, ⟨"f", [], none, some JForest.nil⟩]⟩

/-- A class `class C { void update(String homePhone) {} }` whose parameter
name contains two configured demographic field names. -/
def wClassC10 : ClassDeclaration :=
  ⟨"C", [], none, [], [],
   [⟨"update", [⟨"homePhone", "String"⟩], none, some JForest.nil⟩]⟩

/-- A matcher modelling a compiled pattern that matches the literal text
`phone` anywhere in a line (one reported match per line, like a single
`re.finditer` hit). -/
def phoneMatcher : String → List String :=
  fun line => if containsSub "phone".data line.data then ["phone"] else []

/-- The inheritance chain `class C2x extends C1x {}`, `class C3x extends
C2x {}` used as a statistics example: depth 2. -/
def statsClasses : List ClassDeclaration :=
  [⟨"C2x", [], some "C1x", [], [], []⟩, ⟨"C3x", [], some "C2x", [], [], []⟩]

end Examples

/-- Folding an appending step function over a list appends the concatenation
of the generated blocks. -/
theorem foldl_append_eq {α β : Type} (h : β → List α) :
    ∀ (l : List β) (a : List α),
      l.foldl (fun ms b => ms ++ h b) a = a ++ l.flatMap h
  | [], a => by simp
  | b :: l, a => by
      simp [List.foldl_cons, foldl_append_eq h l, List.append_assoc]

/-- Folding a guarded appending step function over a list appends the blocks
generated for the elements passing the guard. -/
theorem foldl_guard_append_eq {α β : Type} (c : β → Bool) (h : β → List α) :
    ∀ (l : List β) (a : List α),
      l.foldl (fun ms b => if c b then ms ++ h b else ms) a = a ++ (l.filter c).flatMap h
  | [], a => by simp
  | b :: l, a => by
      by_cases hb : c b <;>
        simp [List.foldl_cons, foldl_guard_append_eq c h l, hb, List.append_assoc]

/-- A member of a joined line list is a contiguous substring of the join. -/
theorem pyJoin_mem_infix (sep : String) :
    ∀ (l : List String) (x : String), x ∈ l → x.data <:+: (pyJoin sep l).data
  | [], x, hx => by cases hx
  | [y], x, hx => by
      rcases List.mem_singleton.mp hx with rfl
      exact List.infix_refl _
  | y :: z :: l, x, hx => by
      rcases List.mem_cons.mp hx with rfl | hx
      · refine List.IsPrefix.isInfix ?_
        simp only [pyJoin, String.data_append]
        exact ⟨sep.data ++ (pyJoin sep (z :: l)).data, by simp⟩
      · have ih := pyJoin_mem_infix sep (z :: l) x hx
        have : (pyJoin sep (y :: z :: l)).data =
            (y.data ++ sep.data) ++ (pyJoin sep (z :: l)).data := by
          simp [pyJoin, String.data_append]
        rw [this]
        exact ih.trans (List.suffix_append _ _).isInfix

/-- Fold-preservation of a predicate. -/
theorem foldl_preserves {α β : Type} (P : α → Prop) (f : α → β → α)
    (hf : ∀ a b, P a → P (f a b)) :
    ∀ (l : List β) (a : α), P a → P (l.foldl f a)
  | [], _, ha => ha
  | b :: l, a, ha => foldl_preserves P f hf l (f a b) (hf a b ha)

/-- Membership in a Python-set list is preserved by `pySetAdd`. -/
theorem pySetAdd_mem_mono {l : List String} {x : String} (y : String) (h : x ∈ l) :
    x ∈ pySetAdd l y := by
  unfold pySetAdd
  split
  · exact h
  · exact List.mem_append_left _ h

/-- One step of `CallGraphAnalyzer._analyze_methods` leaves the graph
untouched and only grows the method set. -/
theorem CG_methods_step (st : CallGraphAnalyzer.State) (m : MethodDeclaration) :
    let step := fun (st : CallGraphAnalyzer.State) (m : MethodDeclaration) =>
      let current_method := pyStr st.current_class ++ "." ++ m.name
      let st := { st with methods := pySetAdd st.methods current_method }
      match m.body with
      | some (JForest.cons n f) =>
          CallGraphAnalyzer.analyze_method_body st (JForest.cons n f) current_method
      | _ => st
    (step st m).graph = st.graph ∧ ∀ x ∈ st.methods, x ∈ (step st m).methods := by
  intro step
  rcases m with ⟨mname, mparams, mrt, mbody⟩
  rcases mbody with _ | f
  · exact ⟨rfl, fun x hx => pySetAdd_mem_mono _ hx⟩
  · rcases f with _ | ⟨n, f⟩
    · exact ⟨rfl, fun x hx => pySetAdd_mem_mono _ hx⟩
    · exact ⟨rfl, fun x hx => pySetAdd_mem_mono _ hx⟩

/-- `CallGraphAnalyzer._analyze_classes` leaves the graph untouched and only
grows the method set. -/
theorem CG_analyze_classes_state (st : CallGraphAnalyzer.State)
    (classes : List ClassDeclaration) :
    (CallGraphAnalyzer.analyze_classes st classes).graph = st.graph
      ∧ ∀ x ∈ st.methods, x ∈ (CallGraphAnalyzer.analyze_classes st classes).methods := by
  unfold CallGraphAnalyzer.analyze_classes
  refine foldl_preserves
    (fun a => a.graph = st.graph ∧ ∀ x ∈ st.methods, x ∈ a.methods) _ ?_ classes st
    ⟨rfl, fun _ hx => hx⟩
  intro a c ha
  have hstep := CG_methods_step
  have h := foldl_preserves
    (fun b => b.graph = a.graph ∧ ∀ x ∈ a.methods, x ∈ b.methods) _
    (fun b m hb => by
      rcases CG_methods_step b m with ⟨h1, h2⟩
      exact ⟨h1.trans hb.1, fun x hx => h2 x (hb.2 x hx)⟩)
    c.methods { a with current_class := some c.name } ⟨rfl, fun _ hx => hx⟩
  unfold CallGraphAnalyzer.analyze_methods
  exact ⟨h.1.trans ha.1, fun x hx => h.2 x (ha.2 x hx)⟩

/-- C1.  The claim describes `_analyze_method_body` of the Call Graph
Builder as adding, for every call expression found depth-first in a declared
method's body, an edge from the current method to `qualifier.member` (or
`currentClass.member` without a qualifier).  On the failing input
`class A { void m() { helper.call(); } }` the code adds no edge at all: the
body attribute of a javalang `MethodDeclaration` is a plain Python list,
which has no `filter` method, so `body.filter(MethodInvocation)` raises
`AttributeError` and the `except` clause swallows it after printing a
warning; only the declared identifier `A.m` ever enters the method set, and
the claimed edge `A.m -> helper.call` is absent.  (Even with a working
filter the no-qualifier branch could never fire, because
`hasattr(node, 'qualifier')` is true for every `MethodInvocation`.) -/
theorem C1_call_graph_adds_no_edges :
    (CallGraphAnalyzer.analyze_calls CallGraphAnalyzer.State.init [exClassA]).2.edges = []
      ∧ (CallGraphAnalyzer.analyze_calls CallGraphAnalyzer.State.init [exClassA]).1.methods
        = ["A.m"]
      ∧ ¬ CallGraphAnalyzer.HasEdge
          (CallGraphAnalyzer.analyze_calls CallGraphAnalyzer.State.init [exClassA]).2
          "A.m" "helper.call" := by
  have h0 :
      (CallGraphAnalyzer.analyze_calls CallGraphAnalyzer.State.init [exClassA]).2.edges
        = [] := rfl
  refine ⟨h0, rfl, ?_⟩
  rintro ⟨e, he, -⟩
  rw [h0] at he
  exact absurd he (List.not_mem_nil e)

/-- C2 counterexample.  The claim states that re-invoking an analyzer's
entry point fully resets its accumulators (graphs, interaction lists, method
sets).  For `CallGraphAnalyzer.analyze_calls` this fails: after analyzing
`class A { void m() { helper.call(); } }` and then
`class B { void n() { helper.call(); } }` on the same instance, the method
set still contains the identifier `A.m` of the first run, which a fresh
instance analyzing only the second input does not produce. -/
theorem C2_counterexample :
    "A.m" ∈ (CallGraphAnalyzer.analyze_calls
        (CallGraphAnalyzer.analyze_calls CallGraphAnalyzer.State.init [exClassA]).1
        [exClassB]).1.methods
      ∧ "A.m" ∉ (CallGraphAnalyzer.analyze_calls CallGraphAnalyzer.State.init
        [exClassB]).1.methods := by
  exact ⟨by decide, by decide⟩

/-- C2 (amended).  `SequenceDiagramGenerator.analyze_method_calls` resets
`self.interactions` and `self.current_class` on entry, so its result does
not depend on the prior instance state at all; `CallGraphAnalyzer.
analyze_calls` resets nothing: it returns `self.graph` exactly as the prior
state left it (its own method-body analysis always fails, see C1) and its
method set keeps every identifier accumulated by earlier invocations. -/
theorem C2_amended_reset_behavior :
    (∀ (s1 s2 : SequenceDiagramGenerator.State) (classes : List ClassDeclaration)
        (name : String),
        SequenceDiagramGenerator.analyze_method_calls s1 classes name =
          SequenceDiagramGenerator.analyze_method_calls s2 classes name)
      ∧ (∀ (st : CallGraphAnalyzer.State) (classes : List ClassDeclaration),
          (CallGraphAnalyzer.analyze_calls st classes).1.graph = st.graph
            ∧ (CallGraphAnalyzer.analyze_calls st classes).2 = st.graph
            ∧ ∀ x ∈ st.methods, x ∈ (CallGraphAnalyzer.analyze_calls st classes).1.methods) := by
  constructor
  · intro s1 s2 classes name
    rfl
  · intro st classes
    rcases CG_analyze_classes_state st classes with ⟨h1, h2⟩
    exact ⟨h1, h1, h2⟩

/-- C3 counterexample.  The claim states that every `@Entity` class with a
`@Table(name=...)` attribute yields exactly one table-usage record of kind
`"Entity Class"` regardless of the configured table patterns.  For the class
`@Entity @Table(name = "MY_TABLE") class MyEntity {}`, whose table name
starts with no configured legacy table name, `_add_table_usage` finds no
system and appends nothing: the analyzer emits zero records. -/
theorem C3_counterexample :
    LegacyTableAnalyzer.analyze_entity_annots [] "MyEntity.java" [exEntityClass] = [] := by
  decide

/-- C3 (amended).  For a class carrying an `Entity` annotation from whose
annotations a table name `t` is extracted, `_analyze_entity_annotations`
appends exactly one record if `_get_system_for_table` matches `t` against a
configured legacy table prefix, and none otherwise; the record stores the
class name in `class_name`, the literal `"Entity Class"` in the
`method_name` field and `"JPA Entity"` in the `usage_type` field. -/
theorem C3_amended_entity_rule (us : List LegacyTableAnalyzer.LegacyTableUsage)
    (fp : String) (c : ClassDeclaration) (t : String)
    (h1 : LegacyTableAnalyzer.has_annot c.annotations "Entity" = true)
    (h2 : LegacyTableAnalyzer.get_table_name_from_annots c.annotations = some t) :
    LegacyTableAnalyzer.analyze_entity_annots us fp [c] =
      us ++ (match LegacyTableAnalyzer.get_system_for_table t with
        | some sys => [⟨t, sys, fp, c.name, "Entity Class", "JPA Entity"⟩]
        | none => []) := by
  unfold LegacyTableAnalyzer.analyze_entity_annots LegacyTableAnalyzer.add_table_usage
  simp only [List.foldl_cons, List.foldl_nil, h1, h2, if_true]
  cases LegacyTableAnalyzer.get_system_for_table t <;> simp

/-- C3 witness: for `@Entity @Table(name = "CRPS_CUSTOMER") class
CustomerEntity {}` the rule of `C3_amended_entity_rule` yields exactly one
record, carrying `"Entity Class"` as `method_name` and `"JPA Entity"` as
`usage_type`. -/
theorem C3_witness :
    LegacyTableAnalyzer.analyze_entity_annots [] "Svc.java" [exEntityClassCRPS] =
      [⟨"CRPS_CUSTOMER", "CRPS", "Svc.java", "CustomerEntity", "Entity Class",
        "JPA Entity"⟩] := by
  have h := C3_amended_entity_rule [] "Svc.java" exEntityClassCRPS "CRPS_CUSTOMER"
    (by decide) (by decide)
  have hs : LegacyTableAnalyzer.get_system_for_table "CRPS_CUSTOMER" = some "CRPS" := by
    decide
  rw [hs] at h
  simpa [exEntityClassCRPS] using h

/-- Binding each element to a singleton is mapping. -/
theorem flatMap_singleton_eq_map {α β : Type} (f : α → β) (l : List α) :
    l.flatMap (fun x => [f x]) = l.map f := by
  induction l with
  | nil => rfl
  | cons a l ih => simp [ih]

/-- A fold whose step appends a block only depending on the element equals
the initial list followed by the concatenated blocks. -/
theorem foldl_congr_append {α β : Type} (f : List α → β → List α) (H : β → List α)
    (hf : ∀ a b, f a b = a ++ H b) :
    ∀ (l : List β) (a : List α), l.foldl f a = a ++ l.flatMap H
  | [], a => by simp
  | b :: l, a => by
      rw [List.foldl_cons, hf, foldl_congr_append f H hf l, List.flatMap_cons,
        List.append_assoc]

/-- C7.  The Declaration Extractor records, per class, one field entry per
field declaration holding only the first declarator's name (third conjunct,
for every class list and index), and on
`class Dog extends Animal implements Runnable { void bark() { helper.call(); } }`
it returns exactly the record
`ClassRecord(name="Dog", methods=["bark"], fields=[], extends="Animal",
implements=["Runnable"])` (first conjunct); a field statement declaring the
three variables `a, b, c` contributes exactly the single entry `"a"`
(second conjunct). -/
theorem C7_declaration_extractor :
    JavaCodeParser.parse_code [dogClass] =
      [⟨"Dog", ["bark"], [], some "Animal", ["Runnable"]⟩]
      ∧ JavaCodeParser.parse_code [multiFieldClass] = [⟨"M", [], ["a"], none, []⟩]
      ∧ ∀ (classes : List ClassDeclaration) (i : Nat),
          ((JavaCodeParser.parse_code classes).get? i).map (fun r => r.fields) =
            (classes.get? i).map (fun c => c.fields.map (fun f => f.declarators.1)) := by
  refine ⟨rfl, rfl, ?_⟩
  intro classes i
  simp only [JavaCodeParser.parse_code, List.get?_eq_getElem?, List.getElem?_map,
    Option.map_map]
  cases classes[i]? <;> rfl

/-- C8.  A method whose subtree holds zero call expressions (including an
absent body) contributes an empty interaction list, and the diagram text
generated for an empty interaction list still declares the enclosing class
as a participant and carries the explicit note `No method calls found`; the
generation is a total function, so it cannot raise. -/
theorem C8_zero_calls_diagram (cname : String) (m : MethodDeclaration)
    (h : SequenceDiagramGenerator.methodInvocations m = []) :
    (SequenceDiagramGenerator.analyze_method_body ⟨[], some cname⟩ m).interactions = []
      ∧ ("participant \"" ++ cname ++ "\" as " ++ cname).data <:+:
        (SequenceDiagramGenerator.generate_sequence_diagram cname []).data
      ∧ ("note over " ++ cname ++ ": No method calls found").data <:+:
        (SequenceDiagramGenerator.generate_sequence_diagram cname []).data := by
  have hpart : SequenceDiagramGenerator.participants cname [] = [cname] := by
    simp [SequenceDiagramGenerator.participants]
  have hgen : SequenceDiagramGenerator.generate_sequence_diagram cname [] =
      pyJoin "\n" (SequenceDiagramGenerator.header ++
        ["participant \"" ++ cname ++ "\" as " ++ cname] ++
        ["note over " ++ cname ++ ": No method calls found", "@enduml"]) := by
    simp [SequenceDiagramGenerator.generate_sequence_diagram, hpart]
  refine ⟨?_, ?_, ?_⟩
  · simp [SequenceDiagramGenerator.analyze_method_body, h]
  · rw [hgen]
    apply pyJoin_mem_infix
    simp
  · rw [hgen]
    apply pyJoin_mem_infix
    simp

/-- C8 witness: the bodiless method `void ship();` analyzed in class `Order`
yields an empty interaction list, and the diagram for it still declares
`Order` and the no-calls note. -/
theorem C8_witness :
    (SequenceDiagramGenerator.analyze_method_body ⟨[], some "Order"⟩
        ⟨"ship", [], none, none⟩).interactions = []
      ∧ ("participant \"" ++ "Order" ++ "\" as " ++ "Order").data <:+:
        (SequenceDiagramGenerator.generate_sequence_diagram "Order" []).data
      ∧ ("note over " ++ "Order" ++ ": No method calls found").data <:+:
        (SequenceDiagramGenerator.generate_sequence_diagram "Order" []).data :=
  C8_zero_calls_diagram "Order" ⟨"ship", [], none, none⟩ rfl

/-- C10.  `_check_demographic_field` matches the identifier against every
configured demographic field name by case-insensitive substring containment,
appending one record (carrying the identifier and the configured field's
category) per containing configured name (first conjunct); consequently the
single parameter occurrence `homePhone`, which contains both the configured
names `phone` and `homePhone`, produces two usage records (second
conjunct). -/
theorem C10_substring_matching :
    (∀ (acc : List DemographicsAnalyzer.DemographicUsage) (name fp cls mth ut : String),
        DemographicsAnalyzer.check_demographic_field acc name fp cls mth ut =
          acc ++ DemographicsAnalyzer.demographic_fields.flatMap (fun cf =>
            (cf.2.filter (fun f => containsSub (pyLower f) (pyLower name))).map
              (fun _ => ⟨name, cf.1, fp, cls, mth, ut⟩)))
      ∧ DemographicsAnalyzer.analyze_method_parameters [] "F.java" [wClassC10] =
          [⟨"homePhone", "Phone", "F.java", "C", "update", "Parameter"⟩,
           ⟨"homePhone", "Phone", "F.java", "C", "update", "Parameter"⟩] := by
  constructor
  · intro acc name fp cls mth ut
    unfold DemographicsAnalyzer.check_demographic_field
    refine foldl_congr_append _ _ ?_ DemographicsAnalyzer.demographic_fields acc
    intro a cf
    rw [foldl_guard_append_eq (fun f => containsSub (pyLower f) (pyLower name))
      (fun _ => [⟨name, cf.1, fp, cls, mth, ut⟩]) cf.2 a]
    rw [flatMap_singleton_eq_map]
  · decide

/-- Rewriting of the demographic scanner's nested folds into the prior
matches followed by one flat list of appended records. -/
theorem DPA_analyze_file_eq (pats : List (String × (String → List String)))
    (acc : List DemographicPatternAnalyzer.DemographicMatch) (fp content : String) :
    DemographicPatternAnalyzer.analyze_file pats acc fp content =
      acc ++ (pySplitNl content).enum.flatMap (fun p =>
        pats.flatMap (fun cp =>
          (cp.2 p.2).map (fun g =>
            (⟨cp.1, g, fp, p.1 + 1, g⟩ :
              DemographicPatternAnalyzer.DemographicMatch)))) := by
  unfold DemographicPatternAnalyzer.analyze_file
  refine foldl_congr_append _ _ ?_ _ acc
  intro a p
  refine foldl_congr_append _ _ ?_ pats a
  intro a2 cp
  rw [foldl_append_eq
    (fun g => [(⟨cp.1, g, fp, p.1 + 1, g⟩ : DemographicPatternAnalyzer.DemographicMatch)])
    (cp.2 p.2) a2]
  rw [flatMap_singleton_eq_map]

/-- Rewriting of the integration scanner's nested folds into the prior
matches followed by one flat list of appended records. -/
theorem IPA_analyze_file_eq
    (pats : List (String × List (String × (String → List String))))
    (acc : List IntegrationPatternAnalyzer.PatternMatch) (fp content : String) :
    IntegrationPatternAnalyzer.analyze_file pats acc fp content =
      acc ++ (pySplitNl content).enum.flatMap (fun p =>
        pats.flatMap (fun tp =>
          tp.2.flatMap (fun np =>
            (np.2 p.2).map (fun g =>
              (⟨tp.1, np.1, fp, p.1 + 1, g⟩ :
                IntegrationPatternAnalyzer.PatternMatch))))) := by
  unfold IntegrationPatternAnalyzer.analyze_file
  refine foldl_congr_append _ _ ?_ _ acc
  intro a p
  refine foldl_congr_append _ _ ?_ pats a
  intro a2 tp
  refine foldl_congr_append _ _ ?_ tp.2 a2
  intro a3 np
  rw [foldl_append_eq
    (fun g => [(⟨tp.1, np.1, fp, p.1 + 1, g⟩ : IntegrationPatternAnalyzer.PatternMatch)])
    (np.2 p.2) a3]
  rw [flatMap_singleton_eq_map]

/-- C9.  Both lexical pattern scanners only accumulate records whose
`matched_text` is a contiguous substring of the line of the analyzed content
at the record's 1-based `line_number`, and that line number lies within the
content's line range — provided each configured matcher only reports
substrings of the scanned line, which `re.finditer` guarantees since each
reported `match.group()` is the slice `line[start:end]`. -/
theorem C9_matched_text_is_substring
    (dpats : List (String × (String → List String)))
    (ipats : List (String × List (String × (String → List String))))
    (dacc : List DemographicPatternAnalyzer.DemographicMatch)
    (iacc : List IntegrationPatternAnalyzer.PatternMatch) (fp content : String)
    (hd : ∀ cp ∈ dpats, ∀ line s, s ∈ cp.2 line → s.data <:+: line.data)
    (hi : ∀ tp ∈ ipats, ∀ np ∈ tp.2, ∀ line s, s ∈ np.2 line → s.data <:+: line.data) :
    (∀ r ∈ DemographicPatternAnalyzer.analyze_file dpats dacc fp content,
        r ∈ dacc ∨
          (1 ≤ r.line_number ∧ r.line_number ≤ (pySplitNl content).length ∧
            r.matched_text.data <:+:
              ((pySplitNl content).getD (r.line_number - 1) "").data))
      ∧ (∀ r ∈ IntegrationPatternAnalyzer.analyze_file ipats iacc fp content,
          r ∈ iacc ∨
            (1 ≤ r.line_number ∧ r.line_number ≤ (pySplitNl content).length ∧
              r.matched_text.data <:+:
                ((pySplitNl content).getD (r.line_number - 1) "").data)) := by
  constructor
  · intro r hr
    rw [DPA_analyze_file_eq] at hr
    rcases List.mem_append.mp hr with hl | hrr
    · exact Or.inl hl
    · right
      rcases List.mem_flatMap.mp hrr with ⟨p, hp, hrp⟩
      rcases List.mem_flatMap.mp hrp with ⟨cp, hcp, hrcp⟩
      rcases List.mem_map.mp hrcp with ⟨g, hg, rfl⟩
      have hline : (pySplitNl content)[p.1]? = some p.2 :=
        List.mem_enum_iff_getElem?.mp hp
      have hlt : p.1 < (pySplitNl content).length :=
        (List.getElem?_eq_some.mp hline).1
      have hgetD : (pySplitNl content).getD (p.1 + 1 - 1) "" = p.2 := by
        simp [List.getD_eq_getElem?_getD, hline]
      refine ⟨Nat.le_add_left 1 p.1, hlt, ?_⟩
      show g.data <:+: ((pySplitNl content).getD (p.1 + 1 - 1) "").data
      rw [hgetD]
      exact hd cp hcp p.2 g hg
  · intro r hr
    rw [IPA_analyze_file_eq] at hr
    rcases List.mem_append.mp hr with hl | hrr
    · exact Or.inl hl
    · right
      rcases List.mem_flatMap.mp hrr with ⟨p, hp, hrp⟩
      rcases List.mem_flatMap.mp hrp with ⟨tp, htp, hrtp⟩
      rcases List.mem_flatMap.mp hrtp with ⟨np, hnp, hrnp⟩
      rcases List.mem_map.mp hrnp with ⟨g, hg, rfl⟩
      have hline : (pySplitNl content)[p.1]? = some p.2 :=
        List.mem_enum_iff_getElem?.mp hp
      have hlt : p.1 < (pySplitNl content).length :=
        (List.getElem?_eq_some.mp hline).1
      have hgetD : (pySplitNl content).getD (p.1 + 1 - 1) "" = p.2 := by
        simp [List.getD_eq_getElem?_getD, hline]
      refine ⟨Nat.le_add_left 1 p.1, hlt, ?_⟩
      show g.data <:+: ((pySplitNl content).getD (p.1 + 1 - 1) "").data
      rw [hgetD]
      exact hi tp htp np hnp p.2 g hg

/-- C9 witness: scanning the two-line content `int x;\nString phone;` with a
matcher for the literal `phone` (which reports only substrings, as
`re.finditer` does) accumulates the record at line 2, whose matched text is
a substring of that line. -/
theorem C9_witness :
    1 ≤ 2 ∧ 2 ≤ (pySplitNl "int x;\nString phone;").length ∧
      "phone".data <:+: ((pySplitNl "int x;\nString phone;").getD (2 - 1) "").data := by
  have hsound : ∀ cp ∈ [("contact", phoneMatcher)], ∀ line s, s ∈ cp.2 line →
      s.data <:+: line.data := by
    intro cp hcp line s hs
    rcases List.mem_singleton.mp hcp with rfl
    simp only [phoneMatcher] at hs
    by_cases hc : containsSub "phone".data line.data
    · rw [if_pos hc] at hs
      rcases List.mem_singleton.mp hs with rfl
      exact of_decide_eq_true hc
    · rw [if_neg hc] at hs
      cases hs
  have h := (C9_matched_text_is_substring [("contact", phoneMatcher)] [] [] [] "F.java"
    "int x;\nString phone;" hsound (by intro tp htp; cases htp)).1
  have hmem : (⟨"contact", "phone", "F.java", 2, "phone"⟩ :
      DemographicPatternAnalyzer.DemographicMatch) ∈
      DemographicPatternAnalyzer.analyze_file [("contact", phoneMatcher)] [] "F.java"
        "int x;\nString phone;" := by decide
  have := h _ hmem
  rcases this with habs | hok
  · cases habs
  · exact hok

/-- C4.  The Interaction Trace Builder selects the first method in scan
order — classes in depth-first filter order, methods in declaration order —
whose simple name equals the target (first conjunct: the nested
loop-with-break equals the first match of the flattened scan); and when no
method anywhere matches, the `ValueError` carrying the not-found message is
raised before any diagram text is produced (second conjunct: the result is
an `Except.error`, which carries no diagram text). -/
theorem C4_first_match_or_not_found (classes : List ClassDeclaration)
    (st : SequenceDiagramGenerator.State) (name : String) (h : name ≠ "") :
    SequenceDiagramGenerator.findMethod classes name =
      (classes.flatMap (fun c => c.methods.map (fun m => (c, m)))).find?
        (fun cm => cm.2.name == name)
      ∧ (SequenceDiagramGenerator.findMethod classes name = none →
          SequenceDiagramGenerator.analyze_method_calls st classes name =
            Except.error (SequenceDiagramGenerator.notFoundMsg name)) := by
  constructor
  · induction classes with
    | nil => rfl
    | cons c cs ih =>
        rw [List.flatMap_cons, List.find?_append, List.find?_map]
        show SequenceDiagramGenerator.findMethod (c :: cs) name = _
        unfold SequenceDiagramGenerator.findMethod
        cases hf : c.methods.find? (fun m => m.name == name) with
        | some m =>
            have : c.methods.find? ((fun cm : ClassDeclaration × MethodDeclaration =>
                cm.2.name == name) ∘ (fun m => (c, m))) = some m := hf
            rw [this]
            rfl
        | none =>
            have : c.methods.find? ((fun cm : ClassDeclaration × MethodDeclaration =>
                cm.2.name == name) ∘ (fun m => (c, m))) = none := hf
            rw [this]
            simpa using ih
  · intro hnone
    unfold SequenceDiagramGenerator.analyze_method_calls
    rw [if_neg h, hnone]

/-- C4 witness: with `class X { void f() {} }` before
`class Y { void g() {} void f() {} }`, the scan for `f` picks the first
match of the flattened class/method scan, and a scan for the absent name
`zzz` raises the not-found `ValueError` and returns no diagram text. -/
theorem C4_witness :
    SequenceDiagramGenerator.findMethod [wClassX, wClassY] "f" =
      (([wClassX, wClassY].flatMap (fun c => c.methods.map (fun m => (c, m)))).find?
        (fun cm => cm.2.name == "f"))
      ∧ SequenceDiagramGenerator.analyze_method_calls SequenceDiagramGenerator.State.init
          [wClassX, wClassY] "zzz" =
        Except.error (SequenceDiagramGenerator.notFoundMsg "zzz") := by
  constructor
  · exact (C4_first_match_or_not_found [wClassX, wClassY]
      SequenceDiagramGenerator.State.init "f" (by decide)).1
  · exact (C4_first_match_or_not_found [wClassX, wClassY]
      SequenceDiagramGenerator.State.init "zzz" (by decide)).2 rfl

/-- Fold-preservation of a predicate, with the step hypothesis restricted to
list members. -/
theorem foldl_preserves_mem {α β : Type} (P : α → Prop) (f : α → β → α) :
    ∀ (l : List β), (∀ a, ∀ b ∈ l, P a → P (f a b)) → ∀ a, P a → P (l.foldl f a)
  | [], _, _, ha => ha
  | b :: l, hf, a, ha =>
      foldl_preserves_mem P f l (fun a2 b2 hb2 => hf a2 b2 (List.mem_cons_of_mem b hb2))
        (f a b) (hf a b (List.mem_cons_self b l) ha)

namespace CallGraphAnalyzer

/-- `add_node` keeps the edge list unchanged. -/
theorem add_node_edges (g : DiGraph) (n : String) : (g.add_node n).edges = g.edges := by
  unfold DiGraph.add_node
  split <;> rfl

/-- `add_node` only grows the node list. -/
theorem add_node_nodes_mono {g : DiGraph} {x : String} (n : String) (h : x ∈ g.nodes) :
    x ∈ (g.add_node n).nodes := by
  unfold DiGraph.add_node
  split
  · exact h
  · exact List.mem_append_left _ h

/-- After `add_node n`, the node `n` is present. -/
theorem add_node_mem_self (g : DiGraph) (n : String) : n ∈ (g.add_node n).nodes := by
  unfold DiGraph.add_node
  split
  · assumption
  · exact List.mem_append_right _ (List.mem_singleton.mpr rfl)

/-- `upsertEdge` keeps the node list. -/
theorem upsertEdge_nodes (g : DiGraph) (u v ty d : String) :
    (g.upsertEdge u v ty d).nodes = g.nodes := by
  unfold DiGraph.upsertEdge
  split <;> rfl

/-- `add_edge` keeps the node list of the two `add_node` calls it makes. -/
theorem add_edge_nodes (g : DiGraph) (u v ty d : String) :
    (g.add_edge u v ty d).nodes = ((g.add_node u).add_node v).nodes := by
  unfold DiGraph.add_edge
  exact upsertEdge_nodes _ u v ty d

/-- `add_edge` only grows the node list. -/
theorem add_edge_nodes_mono {g : DiGraph} {x : String} (u v ty d : String)
    (h : x ∈ g.nodes) : x ∈ (g.add_edge u v ty d).nodes := by
  rw [add_edge_nodes]
  exact add_node_nodes_mono v (add_node_nodes_mono u h)

/-- After `add_edge u v`, an `Inheritance`-typed edge from `u` to `v` is
present when that kind was stored (either by updating the pre-existing
`(u, v)` edge or by appending a new one). -/
theorem add_edge_inh (g : DiGraph) (u v d : String) :
    InhEdge (g.add_edge u v "Inheritance" d) u v := by
  unfold DiGraph.add_edge DiGraph.upsertEdge InhEdge
  split
  · next hcond =>
      rcases List.any_eq_true.mp hcond with ⟨e0, he0, hkey⟩
      have hkey' : e0.src = u ∧ e0.tgt = v := by simpa using hkey
      refine ⟨{ e0 with etype := "Inheritance", details := d }, ?_, ?_, ?_, rfl⟩
      · exact List.mem_map.mpr ⟨e0, he0, by rw [if_pos hkey]⟩
      · exact hkey'.1
      · exact hkey'.2
  · exact ⟨⟨u, v, "Inheritance", d⟩, List.mem_append_right _ (List.mem_singleton.mpr rfl),
      rfl, rfl, rfl⟩

/-- An inheritance edge `(x, y)` survives `add_edge u v` whenever the added
key differs from `(x, y)`: the update branch leaves every other edge intact
and the append branch keeps all existing edges. -/
theorem add_edge_inh_pres {g : DiGraph} {x y : String} (u v ty d : String)
    (hne : ¬(u = x ∧ v = y)) (h : InhEdge g x y) : InhEdge (g.add_edge u v ty d) x y := by
  rcases h with ⟨e, he, hs, ht, hty⟩
  have heg' : e ∈ ((g.add_node u).add_node v).edges := by
    rw [add_node_edges, add_node_edges]
    exact he
  unfold DiGraph.add_edge DiGraph.upsertEdge
  split
  · have hfalse : (e.src == u && e.tgt == v) = false := by
      cases hb : (e.src == u && e.tgt == v)
      · rfl
      · exfalso
        have hb' : e.src = u ∧ e.tgt = v := by simpa using hb
        exact hne ⟨hb'.1.symm.trans hs, hb'.2.symm.trans ht⟩
    exact ⟨e, List.mem_map.mpr ⟨e, heg', by simp [hfalse]⟩, hs, ht, hty⟩
  · exact ⟨e, List.mem_append_left _ heg', hs, ht, hty⟩

/-- An inheritance edge survives `add_node`. -/
theorem add_node_inh_pres {g : DiGraph} {x y : String} (n : String)
    (h : InhEdge g x y) : InhEdge (g.add_node n) x y := by
  rcases h with ⟨e, he, hrest⟩
  exact ⟨e, by rw [add_node_edges]; exact he, hrest⟩

/-- `add_node` preserves closure. -/
theorem closed_add_node {g : DiGraph} (n : String) (h : Closed g) :
    Closed (g.add_node n) := by
  intro e he
  rw [add_node_edges] at he
  rcases h e he with ⟨h1, h2⟩
  exact ⟨add_node_nodes_mono n h1, add_node_nodes_mono n h2⟩

/-- `add_edge` preserves closure: the update branch keeps every edge's
endpoints, and the appended edge's endpoints were just inserted as nodes. -/
theorem closed_add_edge {g : DiGraph} (u v ty d : String) (h : Closed g) :
    Closed (g.add_edge u v ty d) := by
  have hclosed' : Closed ((g.add_node u).add_node v) :=
    closed_add_node v (closed_add_node u h)
  have hu : u ∈ ((g.add_node u).add_node v).nodes :=
    add_node_nodes_mono v (add_node_mem_self g u)
  have hv : v ∈ ((g.add_node u).add_node v).nodes := add_node_mem_self _ v
  intro e he
  rw [add_edge_nodes g u v ty d]
  unfold DiGraph.add_edge DiGraph.upsertEdge at he
  revert he
  split
  · intro he
    rcases List.mem_map.mp he with ⟨e0, he0, rfl⟩
    rcases hclosed' e0 he0 with ⟨h1, h2⟩
    split <;> exact ⟨h1, h2⟩
  · intro he
    rcases List.mem_append.mp he with he0 | hnew
    · exact hclosed' e he0
    · rcases List.mem_singleton.mp hnew with rfl
      exact ⟨hu, hv⟩

/-- Closure is preserved by `_analyze_field_relationships`. -/
theorem closed_afr (c : ClassDeclaration) {g : DiGraph} (h : Closed g) :
    Closed (analyze_field_relationships g c) := by
  unfold analyze_field_relationships
  refine foldl_preserves Closed _ ?_ c.fields g h
  intro a f ha
  by_cases hp : is_primitive_or_common_type f.typeName
  · simpa [hp] using ha
  · by_cases hc : is_composition_relationship f <;>
      simpa [hp, hc] using closed_add_edge _ _ _ _ (closed_add_node _ ha)

/-- Closure is preserved by `_analyze_method_relationships`. -/
theorem closed_amr (c : ClassDeclaration) {g : DiGraph} (h : Closed g) :
    Closed (analyze_method_relationships g c) := by
  unfold analyze_method_relationships
  refine foldl_preserves Closed _ ?_ c.methods g h
  intro a m ha
  have hparams : ∀ (l : List FormalParameter) (a0 : DiGraph), Closed a0 →
      Closed (l.foldl (fun g p =>
        if is_primitive_or_common_type p.typeName then g
        else (g.add_node p.typeName).add_edge c.name p.typeName "Association"
          (c.name ++ " uses " ++ p.typeName)) a0) := by
    intro l a0 ha0
    refine foldl_preserves Closed _ ?_ l a0 ha0
    intro a2 p ha2
    by_cases hp : is_primitive_or_common_type p.typeName
    · simpa [hp] using ha2
    · simpa [hp] using closed_add_edge _ _ _ _ (closed_add_node _ ha2)
  cases hrt : m.return_type with
  | none => simpa [hrt] using hparams m.parameters a ha
  | some rt =>
      by_cases hp : is_primitive_or_common_type rt
      · simpa [hrt, hp] using hparams m.parameters a ha
      · simpa [hrt, hp] using closed_add_edge _ _ _ _
          (closed_add_node _ (hparams m.parameters a ha))

/-- Closure is preserved by one class iteration of the relationship loop. -/
theorem closed_class_step (c : ClassDeclaration) {g : DiGraph} (h : Closed g) :
    Closed (class_relationship_step g c) := by
  unfold class_relationship_step
  refine closed_amr c (closed_afr c ?_)
  have h1 : Closed (class_node_step g c) := by
    unfold class_node_step
    split
    · exact h
    · exact closed_add_node _ h
  have h2 : Closed (extends_step (class_node_step g c) c) := by
    unfold extends_step
    cases c.extends' with
    | none => exact h1
    | some parent => exact closed_add_edge _ _ _ _ (closed_add_node _ h1)
  unfold implements_step
  refine foldl_preserves Closed _ ?_ c.implements _ h2
  intro a i ha
  exact closed_add_edge _ _ _ _ (closed_add_node _ ha)

/-- The relationship graph built from any class list is closed: every edge
endpoint is a node. -/
theorem closed_analyze_class_relationships (classes : List ClassDeclaration) :
    Closed (analyze_class_relationships DiGraph.empty classes) := by
  unfold analyze_class_relationships
  refine foldl_preserves Closed _ ?_ classes DiGraph.empty ?_
  · intro a c ha
    exact closed_class_step c ha
  · intro e he
    cases he

/-- An inheritance edge `(x, y)` survives `_analyze_field_relationships` of a
class whose field relations never write the key `(x, y)`. -/
theorem afr_inh_pres {x y : String} (c : ClassDeclaration)
    (hkey : ∀ f ∈ c.fields, ¬(c.name = x ∧ f.typeName = y)) {g : DiGraph}
    (h : InhEdge g x y) : InhEdge (analyze_field_relationships g c) x y := by
  unfold analyze_field_relationships
  refine foldl_preserves_mem (fun a => InhEdge a x y) _ c.fields ?_ g h
  intro a f hf ha
  by_cases hp : is_primitive_or_common_type f.typeName
  · simpa [hp] using ha
  · by_cases hc : is_composition_relationship f <;>
      simpa [hp, hc] using add_edge_inh_pres _ _ _ _ (hkey f hf) (add_node_inh_pres _ ha)

/-- An inheritance edge `(x, y)` survives `_analyze_method_relationships` of
a class whose parameter and return relations never write the key `(x, y)`. -/
theorem amr_inh_pres {x y : String} (c : ClassDeclaration)
    (hkey : ∀ m ∈ c.methods,
      (∀ p ∈ m.parameters, ¬(c.name = x ∧ p.typeName = y))
        ∧ ¬(c.name = x ∧ m.return_type = some y)) {g : DiGraph}
    (h : InhEdge g x y) : InhEdge (analyze_method_relationships g c) x y := by
  unfold analyze_method_relationships
  refine foldl_preserves_mem (fun a => InhEdge a x y) _ c.methods ?_ g h
  intro a m hm ha
  have hparams : ∀ (l : List FormalParameter),
      (∀ p ∈ l, ¬(c.name = x ∧ p.typeName = y)) → ∀ (a0 : DiGraph), InhEdge a0 x y →
      InhEdge (l.foldl (fun g p =>
        if is_primitive_or_common_type p.typeName then g
        else (g.add_node p.typeName).add_edge c.name p.typeName "Association"
          (c.name ++ " uses " ++ p.typeName)) a0) x y := by
    intro l hl a0 ha0
    refine foldl_preserves_mem (fun a => InhEdge a x y) _ l ?_ a0 ha0
    intro a2 p hp2 ha2
    by_cases hp : is_primitive_or_common_type p.typeName
    · simpa [hp] using ha2
    · simpa [hp] using add_edge_inh_pres _ _ _ _ (hl p hp2) (add_node_inh_pres _ ha2)
  have hfold := hparams m.parameters (hkey m hm).1 a ha
  cases hrt : m.return_type with
  | none => simpa [hrt] using hfold
  | some rt =>
      by_cases hp : is_primitive_or_common_type rt
      · simpa [hrt, hp] using hfold
      · have hne : ¬(c.name = x ∧ rt = y) := by
          intro hcon
          exact (hkey m hm).2 ⟨hcon.1, by rw [hrt, hcon.2]⟩
        simpa [hrt, hp] using add_edge_inh_pres _ _ _ _ hne (add_node_inh_pres _ hfold)

/-- An inheritance edge `(x, y)` survives the whole class iteration of any
class whose name differs from `x`, since every edge such an iteration writes
has the class's own name as source. -/
theorem class_step_inh_pres {x y : String} (c : ClassDeclaration) (hname : c.name ≠ x)
    {g : DiGraph} (h : InhEdge g x y) : InhEdge (class_relationship_step g c) x y := by
  unfold class_relationship_step
  have h1 : InhEdge (class_node_step g c) x y := by
    unfold class_node_step
    split
    · exact h
    · exact add_node_inh_pres _ h
  have h2 : InhEdge (extends_step (class_node_step g c) c) x y := by
    unfold extends_step
    cases c.extends' with
    | none => exact h1
    | some parent =>
        exact add_edge_inh_pres _ _ _ _ (fun hcon => hname hcon.1) (add_node_inh_pres _ h1)
  have h3 : InhEdge (implements_step (extends_step (class_node_step g c) c) c) x y := by
    unfold implements_step
    refine foldl_preserves (fun a => InhEdge a x y) _ ?_ c.implements _ h2
    intro a i ha
    exact add_edge_inh_pres _ _ _ _ (fun hcon => hname hcon.1) (add_node_inh_pres _ ha)
  exact amr_inh_pres c (fun m _ => ⟨fun p _ hcon => hname hcon.1, fun hcon => hname hcon.1⟩)
    (afr_inh_pres c (fun f _ hcon => hname hcon.1) h3)

/-- Processing the declaration `class B extends A ...` itself establishes
the `(B, A, Inheritance)` edge, and the rest of the iteration keeps it as
long as none of the class's implement/field/parameter/return relations
targets `A` again. -/
theorem class_step_inh_estab (c : ClassDeclaration) (A : String)
    (hext : c.extends' = some A) (himpl : A ∉ c.implements)
    (hfld : ∀ f ∈ c.fields, f.typeName ≠ A)
    (hmeth : ∀ m ∈ c.methods,
      (∀ p ∈ m.parameters, p.typeName ≠ A) ∧ m.return_type ≠ some A)
    (g : DiGraph) : InhEdge (class_relationship_step g c) c.name A := by
  unfold class_relationship_step
  have h2 : InhEdge (extends_step (class_node_step g c) c) c.name A := by
    unfold extends_step
    rw [hext]
    exact add_edge_inh _ _ _ _
  have h3 : InhEdge (implements_step (extends_step (class_node_step g c) c) c) c.name A := by
    unfold implements_step
    refine foldl_preserves_mem (fun a => InhEdge a c.name A) _ c.implements ?_ _ h2
    intro a i hi ha
    have hne : ¬(c.name = c.name ∧ i = A) := fun hcon => himpl (hcon.2 ▸ hi)
    exact add_edge_inh_pres _ _ _ _ hne (add_node_inh_pres _ ha)
  refine amr_inh_pres c ?_ (afr_inh_pres c ?_ h3)
  · intro m hm
    refine ⟨fun p hp hcon => (hmeth m hm).1 p hp hcon.2, fun hcon => ?_⟩
    exact (hmeth m hm).2 hcon.2
  · intro f hf hcon
    exact hfld f hf hcon.2

end CallGraphAnalyzer

/-- C5 counterexample.  The claim requires the edge `(B, A, Inheritance)`
for every source where `class B extends A`.  For
`class B extends A { A x; }` the builder first stores the inheritance edge
but then, processing the field of type `A`, calls `add_edge` on the same
`(B, A)` key, which updates the existing edge's attributes in place: the
built graph holds `(B, A)` only with kind `Association`, and no
`Inheritance`-typed edge exists. -/
theorem C5_counterexample :
    ¬ CallGraphAnalyzer.InhEdge
        (CallGraphAnalyzer.analyze_class_relationships DiGraph.empty [cexClassB5]) "B" "A"
      ∧ (CallGraphAnalyzer.analyze_class_relationships DiGraph.empty [cexClassB5]).edges =
        [⟨"B", "A", "Association", "B association with A"⟩] := by
  have hedges : (CallGraphAnalyzer.analyze_class_relationships DiGraph.empty
      [cexClassB5]).edges = [⟨"B", "A", "Association", "B association with A"⟩] := by
    decide
  refine ⟨fun h => ?_, hedges⟩
  rcases h with ⟨e, he, hs, ht, hty⟩
  rw [hedges] at he
  rcases List.mem_singleton.mp he with rfl
  exact absurd hty (by decide)

/-- C5 (amended).  Every relationship graph the builder produces is closed:
each edge endpoint exists as a graph node, even for classes never declared
in the corpus (first conjunct, unconditional).  For `class B extends A` the
edge `(B, A, Inheritance)` is present — and `B` and `A` are nodes — provided
no later write to the same `(B, A)` key overwrites its kind: `A` is not
among the implemented interfaces, field types, parameter types or return
types of the declaring class, and no later class declaration carries the
same name `B` (second conjunct). -/
theorem C5_inheritance_edge_and_node_closure :
    (∀ classes : List ClassDeclaration,
        CallGraphAnalyzer.Closed
          (CallGraphAnalyzer.analyze_class_relationships DiGraph.empty classes))
      ∧ ∀ (pre post : List ClassDeclaration) (c : ClassDeclaration) (A : String),
          c.extends' = some A →
          (∀ d ∈ post, d.name ≠ c.name) →
          A ∉ c.implements →
          (∀ f ∈ c.fields, f.typeName ≠ A) →
          (∀ m ∈ c.methods,
            (∀ p ∈ m.parameters, p.typeName ≠ A) ∧ m.return_type ≠ some A) →
          CallGraphAnalyzer.InhEdge
            (CallGraphAnalyzer.analyze_class_relationships DiGraph.empty (pre ++ c :: post))
            c.name A
          ∧ c.name ∈ (CallGraphAnalyzer.analyze_class_relationships DiGraph.empty
              (pre ++ c :: post)).nodes
          ∧ A ∈ (CallGraphAnalyzer.analyze_class_relationships DiGraph.empty
              (pre ++ c :: post)).nodes := by
  refine ⟨CallGraphAnalyzer.closed_analyze_class_relationships, ?_⟩
  intro pre post c A hext hpost himpl hfld hmeth
  have hsplit : CallGraphAnalyzer.analyze_class_relationships DiGraph.empty
      (pre ++ c :: post) =
      post.foldl CallGraphAnalyzer.class_relationship_step
        (CallGraphAnalyzer.class_relationship_step
          (pre.foldl CallGraphAnalyzer.class_relationship_step DiGraph.empty) c) := by
    unfold CallGraphAnalyzer.analyze_class_relationships
    rw [List.foldl_append, List.foldl_cons]
  have hedge : CallGraphAnalyzer.InhEdge
      (CallGraphAnalyzer.analyze_class_relationships DiGraph.empty (pre ++ c :: post))
      c.name A := by
    rw [hsplit]
    refine foldl_preserves_mem (fun a => CallGraphAnalyzer.InhEdge a c.name A) _ post ?_ _
      (CallGraphAnalyzer.class_step_inh_estab c A hext himpl hfld hmeth _)
    intro a d hd ha
    exact CallGraphAnalyzer.class_step_inh_pres d (hpost d hd) ha
  have hclosed := CallGraphAnalyzer.closed_analyze_class_relationships (pre ++ c :: post)
  rcases hedge with ⟨e, he, hs, ht, hty⟩
  rcases hclosed e he with ⟨h1, h2⟩
  exact ⟨⟨e, he, hs, ht, hty⟩, hs ▸ h1, ht ▸ h2⟩

/-- C5 witness: for the corpus `[class B extends A {}]`, where `A` has no
declaration, the built graph holds the `(B, A, Inheritance)` edge and both
`B` and `A` as nodes. -/
theorem C5_witness :
    CallGraphAnalyzer.InhEdge
        (CallGraphAnalyzer.analyze_class_relationships DiGraph.empty [wClassB5]) "B" "A"
      ∧ "B" ∈ (CallGraphAnalyzer.analyze_class_relationships DiGraph.empty [wClassB5]).nodes
      ∧ "A" ∈ (CallGraphAnalyzer.analyze_class_relationships DiGraph.empty
          [wClassB5]).nodes := by
  have h := C5_inheritance_edge_and_node_closure.2 [] [] wClassB5 "A" rfl
    (fun d hd => absurd hd (List.not_mem_nil d))
    (List.not_mem_nil "A")
    (fun f hf => absurd hf (List.not_mem_nil f))
    (fun m hm => absurd hm (List.not_mem_nil m))
  simpa [wClassB5] using h

/-- The initial accumulator bounds a `foldl max`. -/
theorem le_foldl_max : ∀ (l : List Nat) (a : Nat), a ≤ l.foldl max a
  | [], a => le_refl a
  | b :: l, a => le_trans (le_max_left a b) (le_foldl_max l (max a b))

/-- Every member bounds a `foldl max` from below. -/
theorem mem_le_foldl_max : ∀ (l : List Nat) (a x : Nat), x ∈ l → x ≤ l.foldl max a
  | [], _, _, hx => absurd hx (List.not_mem_nil _)
  | b :: l, a, x, hx => by
      rcases List.mem_cons.mp hx with rfl | hx
      · exact le_trans (le_max_right a x) (le_foldl_max l (max a x))
      · exact mem_le_foldl_max l (max a b) x hx

/-- A `foldl max` is the accumulator or one of the members. -/
theorem foldl_max_cases : ∀ (l : List Nat) (a : Nat), l.foldl max a = a ∨ l.foldl max a ∈ l
  | [], _ => Or.inl rfl
  | b :: l, a => by
      rcases foldl_max_cases l (max a b) with h | h
      · rw [List.foldl_cons, h]
        rcases max_choice a b with h2 | h2
        · exact Or.inl h2
        · exact Or.inr (by rw [h2]; exact List.mem_cons_self b l)
      · exact Or.inr (List.mem_cons_of_mem b h)

/-- A fold whose step is a `foldl max` over a block equals the `foldl max`
over the concatenated blocks. -/
theorem foldl_max_transport {β : Type} (f : Nat → β → Nat) (K : β → List Nat)
    (hf : ∀ a b, f a b = (K b).foldl max a) :
    ∀ (l : List β) (a : Nat), l.foldl f a = (l.flatMap K).foldl max a
  | [], _ => rfl
  | b :: l, a => by
      rw [List.foldl_cons, hf, foldl_max_transport f K hf l, List.flatMap_cons,
        List.foldl_append]

/-- A guarded `max` fold is the `max` fold over the filtered, mapped list. -/
theorem foldl_max_guard {α : Type} (P : α → Bool) (val : α → Nat) :
    ∀ (l : List α) (a : Nat),
      l.foldl (fun acc p => if P p then max acc (val p) else acc) a =
        ((l.filter P).map val).foldl max a
  | [], _ => rfl
  | p :: l, a => by
      by_cases hp : P p <;> simp [hp, foldl_max_guard P val l]

namespace CallGraphAnalyzer

/-- The nested loops of the `max_inheritance_depth` computation equal a
single `foldl max` over the flattened candidate list. -/
theorem mid_eq_foldl_max (g : DiGraph) :
    max_inheritance_depth g = (inhDepthCandidates g).foldl max 0 := by
  unfold max_inheritance_depth inhDepthCandidates
  refine foldl_max_transport _ _ ?_ g.nodes 0
  intro a u
  refine foldl_max_transport _ _ ?_ g.nodes a
  intro a2 v
  by_cases huv : u ≠ v
  · rw [if_pos huv, if_pos huv]
    exact foldl_max_guard _ _ _ a2
  · rw [if_neg huv, if_neg huv]
    rfl

/-- Membership of a value in the candidate list of the depth computation. -/
theorem mem_inhDepthCandidates {g : DiGraph} {x : Nat} :
    x ∈ inhDepthCandidates g ↔
      ∃ u ∈ g.nodes, ∃ v ∈ g.nodes, u ≠ v ∧
        ∃ p ∈ all_simple_paths g u v, pathAllInheritance g p = true ∧ x = p.length - 1 := by
  unfold inhDepthCandidates
  constructor
  · intro hx
    rcases List.mem_flatMap.mp hx with ⟨u, hu, hx⟩
    rcases List.mem_flatMap.mp hx with ⟨v, hv, hx⟩
    by_cases huv : u ≠ v
    · rw [if_pos huv] at hx
      rcases List.mem_map.mp hx with ⟨p, hp, rfl⟩
      rcases List.mem_filter.mp hp with ⟨hp1, hp2⟩
      exact ⟨u, hu, v, hv, huv, p, hp1, hp2, rfl⟩
    · rw [if_neg huv] at hx
      cases hx
  · rintro ⟨u, hu, v, hv, huv, p, hp, hinh, rfl⟩
    refine List.mem_flatMap.mpr ⟨u, hu, List.mem_flatMap.mpr ⟨v, hv, ?_⟩⟩
    rw [if_pos huv]
    exact List.mem_map.mpr ⟨p, List.mem_filter.mpr ⟨hp, hinh⟩, rfl⟩

/-- Successor membership is edge existence. -/
theorem mem_successors_iff {g : DiGraph} {u w : String} :
    w ∈ successors g u ↔ HasEdge g u w := by
  unfold successors HasEdge
  constructor
  · intro h
    rcases List.mem_map.mp h with ⟨e, he, rfl⟩
    rcases List.mem_filter.mp he with ⟨he1, he2⟩
    exact ⟨e, he1, by simpa using he2, rfl⟩
  · rintro ⟨e, he, hs, ht⟩
    exact List.mem_map.mpr ⟨e, List.mem_filter.mpr ⟨he, by simp [hs]⟩, ht⟩

/-- Inheritance-successor membership is inheritance-edge existence. -/
theorem mem_inhSuccessors_iff {g : DiGraph} {u w : String} :
    w ∈ inhSuccessors g u ↔ InhEdge g u w := by
  unfold inhSuccessors InhEdge
  constructor
  · intro h
    rcases List.mem_map.mp h with ⟨e, he, rfl⟩
    rcases List.mem_filter.mp he with ⟨he1, he2⟩
    have he2' : e.src = u ∧ e.etype = "Inheritance" := by simpa using he2
    exact ⟨e, he1, he2'.1, rfl, he2'.2⟩
  · rintro ⟨e, he, hs, ht, hty⟩
    exact List.mem_map.mpr ⟨e, List.mem_filter.mpr ⟨he, by simp [hs, hty]⟩, ht⟩

/-- Under duplicate-free edge keys, two stored edges with the same key are
the same edge. -/
theorem key_unique_aux :
    ∀ {l : List Edge}, (l.map (fun e => (e.src, e.tgt))).Nodup →
      ∀ e1 ∈ l, ∀ e2 ∈ l, e1.src = e2.src → e1.tgt = e2.tgt → e1 = e2 := by
  intro l
  induction l with
  | nil =>
      intro _ e1 h1
      cases h1
  | cons e es ih =>
      intro hk e1 h1 e2 h2 hs ht
      rcases List.nodup_cons.mp hk with ⟨hnot, hes⟩
      rcases List.mem_cons.mp h1 with rfl | h1t <;> rcases List.mem_cons.mp h2 with rfl | h2t
      · rfl
      · refine absurd (List.mem_map.mpr ⟨e2, h2t, ?_⟩) hnot
        show (e2.src, e2.tgt) = (e1.src, e1.tgt)
        rw [Prod.mk.injEq]
        exact ⟨hs.symm, ht.symm⟩
      · refine absurd (List.mem_map.mpr ⟨e1, h1t, ?_⟩) hnot
        show (e1.src, e1.tgt) = (e2.src, e2.tgt)
        rw [Prod.mk.injEq]
        exact ⟨hs, ht⟩
      · exact ih hes e1 h1t e2 h2t hs ht

/-- Under duplicate-free edge keys, `graph[x][y]['type']` returns the stored
kind of any edge with key `(x, y)`. -/
theorem edge_type_at_eq {g : DiGraph} (hk : EdgeKeysNodup g) {x y : String} (e : Edge)
    (he : e ∈ g.edges) (hs : e.src = x) (ht : e.tgt = y) :
    edge_type_at g x y = e.etype := by
  unfold edge_type_at
  have hsome : (g.edges.find? (fun e => e.src == x && e.tgt == y)).isSome :=
    List.find?_isSome.mpr ⟨e, he, by simp [hs, ht]⟩
  rcases Option.isSome_iff_exists.mp hsome with ⟨e0, he0⟩
  have he0mem := List.mem_of_find?_eq_some he0
  have he0p : e0.src = x ∧ e0.tgt = y := by simpa using List.find?_some he0
  have : e0 = e := key_unique_aux hk e0 he0mem e he (he0p.1.trans hs.symm)
    (he0p.2.trans ht.symm)
  rw [he0, this]
  rfl

/-- Pointwise equivalence used to recognize all-inheritance paths: an edge
step whose stored kind reads `Inheritance` is an inheritance edge. -/
theorem hasEdge_type_iff_inh {g : DiGraph} (hk : EdgeKeysNodup g) (x y : String) :
    HasEdge g x y ∧ (edge_type_at g x y == "Inheritance") = true ↔ InhEdge g x y := by
  constructor
  · rintro ⟨⟨e, he, hs, ht⟩, hty⟩
    refine ⟨e, he, hs, ht, ?_⟩
    have := edge_type_at_eq hk e he hs ht
    rw [this] at hty
    simpa using hty
  · rintro ⟨e, he, hs, ht, hty⟩
    refine ⟨⟨e, he, hs, ht⟩, ?_⟩
    rw [edge_type_at_eq hk e he hs ht, hty]
    rfl

end CallGraphAnalyzer

/-- A chain together with an all-pairs boolean check is a chain for the
conjoined relation. -/
theorem chain'_zip_all {α : Type} (R S : α → α → Prop) (Q : α → α → Bool)
    (h : ∀ x y, R x y ∧ Q x y = true ↔ S x y) :
    ∀ p : List α,
      (List.Chain' R p ∧ (p.zip p.tail).all (fun q => Q q.1 q.2) = true) ↔ List.Chain' S p
  | [] => by simp
  | [x] => by simp
  | x :: y :: t => by
      rw [List.chain'_cons, List.chain'_cons]
      have ih := chain'_zip_all R S Q h (y :: t)
      constructor
      · rintro ⟨⟨hr, hc⟩, hall⟩
        obtain ⟨hq, hrest⟩ : Q x y = true ∧ ((y :: t).zip t).all (fun q => Q q.1 q.2) = true := by
          simpa using hall
        exact ⟨(h x y).mp ⟨hr, hq⟩, ih.mp ⟨hc, hrest⟩⟩
      · rintro ⟨hs, hc⟩
        rcases (h x y).mpr hs with ⟨hr, hq⟩
        rcases ih.mpr hc with ⟨hcr, hrest⟩
        refine ⟨⟨hr, hcr⟩, ?_⟩
        simpa using And.intro hq hrest

namespace CallGraphAnalyzer

/-- A path is a successor chain whose stored kinds all read `Inheritance`
exactly when it is a chain of inheritance edges. -/
theorem chain_pathAllInh_iff {g : DiGraph} (hk : EdgeKeysNodup g) (p : List String) :
    (List.Chain' (fun x y => y ∈ successors g x) p ∧ pathAllInheritance g p = true) ↔
      List.Chain' (InhEdge g) p := by
  unfold pathAllInheritance
  exact chain'_zip_all _ _ _
    (fun x y => (and_congr_left (fun _ => mem_successors_iff)).trans
      (hasEdge_type_iff_inh hk x y)) p

/-- In a closed graph, every vertex of an inheritance chain starting at a
node is a node. -/
theorem chain_inh_mem_nodes {g : DiGraph} (hc : Closed g) :
    ∀ (p : List String) (u : String), p.head? = some u → u ∈ g.nodes →
      List.Chain' (InhEdge g) p → ∀ x ∈ p, x ∈ g.nodes
  | [], u, hh, _, _, x, hx => absurd hx (List.not_mem_nil x)
  | [a], u, hh, hu, _, x, hx => by
      obtain rfl : a = u := by simpa using hh
      rcases List.mem_singleton.mp hx with rfl
      exact hu
  | a :: b :: t, u, hh, hu, hch, x, hx => by
      obtain rfl : a = u := by simpa using hh
      rcases List.chain'_cons.mp hch with ⟨hab, hch'⟩
      have hb : b ∈ g.nodes := by
        rcases hab with ⟨e, he, _, ht, _⟩
        exact ht ▸ (hc e he).2
      rcases List.mem_cons.mp hx with rfl | hx
      · exact hu
      · exact chain_inh_mem_nodes hc (b :: t) b rfl hb hch' x hx

/-- A duplicate-free list of vertices drawn from the node list is no longer
than the node list. -/
theorem nodup_length_le {p l : List String} (hn : p.Nodup) (hsub : ∀ x ∈ p, x ∈ l) :
    p.length ≤ l.length := by
  calc p.length = p.toFinset.card := (List.toFinset_card_of_nodup hn).symm
    _ ≤ l.toFinset.card := Finset.card_le_card
        (fun x hx => List.mem_toFinset.mpr (hsub x (List.mem_toFinset.mp hx)))
    _ ≤ l.length := List.toFinset_card_le l

/-- Soundness of the depth-first path enumeration: every produced list is a
duplicate-free successor chain from `u` to `v` avoiding the visited set. -/
theorem simplePathsAux_sound (g : DiGraph) :
    ∀ (fuel : Nat) (u v : String) (visited : List String) (p : List String),
      u ∉ visited → p ∈ simplePathsAux g fuel u v visited →
      p.head? = some u ∧ p.getLast? = some v ∧ p.Nodup ∧
        (∀ x ∈ p, x ∉ visited) ∧ List.Chain' (fun x y => y ∈ successors g x) p := by
  intro fuel
  induction fuel with
  | zero =>
      intro u v visited p _ hp
      cases hp
  | succ fuel ih =>
      intro u v visited p hu hp
      simp only [simplePathsAux] at hp
      by_cases huv : u = v
      · rw [if_pos huv] at hp
        rcases List.mem_singleton.mp hp with rfl
        refine ⟨rfl, by rw [huv]; rfl, List.nodup_singleton u, ?_, List.chain'_singleton u⟩
        intro x hx
        rcases List.mem_singleton.mp hx with rfl
        exact hu
      · rw [if_neg huv] at hp
        rcases List.mem_flatMap.mp hp with ⟨w, hw, hp⟩
        rcases List.mem_map.mp hp with ⟨q, hq, rfl⟩
        rcases List.mem_filter.mp hw with ⟨hwsucc, hwvis⟩
        have hwvis' : w ∉ u :: visited := by simpa using hwvis
        obtain ⟨ih1, ih2, ih3, ih4, ih5⟩ := ih w v (u :: visited) q hwvis' hq
        have hqne : q ≠ [] := by
          intro h
          rw [h] at ih1
          cases ih1
        refine ⟨rfl, ?_, ?_, ?_, ?_⟩
        · cases q with
          | nil => exact absurd rfl hqne
          | cons b t => rw [List.getLast?_cons_cons]; exact ih2
        · refine List.nodup_cons.mpr ⟨?_, ih3⟩
          intro hu_in_q
          exact (ih4 u hu_in_q) (List.mem_cons_self u visited)
        · intro x hx
          rcases List.mem_cons.mp hx with rfl | hx
          · exact hu
          · exact fun hxv => (ih4 x hx) (List.mem_cons_of_mem u hxv)
        · refine List.Chain'.cons' ih5 ?_
          intro y hy
          rw [ih1] at hy
          have : w = y := by simpa using hy
          exact this ▸ hwsucc

/-- Completeness of the depth-first path enumeration: every duplicate-free
successor chain from `u` to `v` avoiding the visited set, short enough for
the fuel, is produced. -/
theorem simplePathsAux_complete (g : DiGraph) :
    ∀ (p : List String) (fuel : Nat) (u v : String) (visited : List String),
      p.head? = some u → p.getLast? = some v → p.Nodup →
      (∀ x ∈ p, x ∉ visited) →
      List.Chain' (fun x y => y ∈ successors g x) p →
      p.length ≤ fuel →
      p ∈ simplePathsAux g fuel u v visited
  | [], _, _, _, _ => by
      intro h1 _ _ _ _ _
      cases h1
  | [a], fuel, u, v, visited => by
      intro h1 h2 _ _ _ hlen
      obtain rfl : a = u := by simpa using h1
      obtain rfl : a = v := by simpa using h2
      cases fuel with
      | zero => simp at hlen
      | succ f =>
          simp only [simplePathsAux]
          simp
  | a :: b :: t, fuel, u, v, visited => by
      intro h1 h2 hnd hvis hch hlen
      obtain rfl : a = u := by simpa using h1
      cases fuel with
      | zero => simp at hlen
      | succ f =>
          have hbv : (b :: t).getLast? = some v := by
            rw [List.getLast?_cons_cons] at h2
            exact h2
          have hvmem : v ∈ b :: t := by
            have : v ∈ (b :: t).getLast? := hbv ▸ rfl
            rcases List.mem_getLast?_eq_getLast this with ⟨hne, rfl⟩
            exact List.getLast_mem hne
          have hnotin : a ∉ b :: t := (List.nodup_cons.mp hnd).1
          have hunv : a ≠ v := fun h => hnotin (h ▸ hvmem)
          simp only [simplePathsAux]
          rw [if_neg hunv]
          have hbu : b ≠ a := by
            intro h
            exact hnotin (h ▸ List.mem_cons_self b t)
          have hbvis : b ∉ visited := hvis b (List.mem_cons_of_mem a (List.mem_cons_self b t))
          refine List.mem_flatMap.mpr ⟨b, List.mem_filter.mpr ⟨?_, ?_⟩, ?_⟩
          · exact (List.chain'_cons.mp hch).1
          · exact decide_eq_true (by simp [hbu, hbvis])
          · refine List.mem_map.mpr ⟨b :: t, ?_, rfl⟩
            refine simplePathsAux_complete g (b :: t) f b v (a :: visited) rfl hbv
              (List.nodup_cons.mp hnd).2 ?_ (List.chain'_cons.mp hch).2 ?_
            · intro x hx hxin
              rcases List.mem_cons.mp hxin with rfl | hxv
              · exact hnotin hx
              · exact hvis x (List.mem_cons_of_mem a hx) hxv
            · simpa using Nat.le_of_succ_le_succ hlen

/-- Every simple inheritance path's edge count is bounded by the computed
maximum inheritance depth. -/
theorem mid_upper {g : DiGraph} (hk : EdgeKeysNodup g) :
    ∀ p, SimpleInhPath g p → p.length - 1 ≤ max_inheritance_depth g := by
  intro p hp
  rcases hp with ⟨hne, hnd, hmem, hch⟩
  rw [mid_eq_foldl_max]
  match p, hne with
  | [a], _ => simp
  | a :: b :: t, _ =>
      obtain ⟨hchR, hinh⟩ := (chain_pathAllInh_iff hk (a :: b :: t)).mpr hch
      obtain ⟨v, hv⟩ : ∃ v, (a :: b :: t).getLast? = some v :=
        Option.isSome_iff_exists.mp (List.getLast?_isSome.mpr (by simp))
      have hvmem : v ∈ a :: b :: t := by
        have : v ∈ (a :: b :: t).getLast? := hv ▸ rfl
        rcases List.mem_getLast?_eq_getLast this with ⟨hx, rfl⟩
        exact List.getLast_mem hx
      have hvtail : v ∈ b :: t := by
        rw [List.getLast?_cons_cons] at hv
        have : v ∈ (b :: t).getLast? := hv ▸ rfl
        rcases List.mem_getLast?_eq_getLast this with ⟨hx, rfl⟩
        exact List.getLast_mem hx
      have hanv : a ≠ v := fun h => (List.nodup_cons.mp hnd).1 (h ▸ hvtail)
      have hpin : a :: b :: t ∈ all_simple_paths g a v := by
        unfold all_simple_paths
        exact simplePathsAux_complete g (a :: b :: t) g.nodes.length a v [] rfl hv hnd
          (by simp) hchR (nodup_length_le hnd hmem)
      refine mem_le_foldl_max _ 0 _ (mem_inhDepthCandidates.mpr
        ⟨a, hmem a (List.mem_cons_self a (b :: t)), v, hmem v hvmem, hanv,
          a :: b :: t, hpin, hinh, rfl⟩)

/-- The computed maximum inheritance depth is zero or achieved by a simple
inheritance path. -/
theorem mid_achieved {g : DiGraph} (hc : Closed g) (hk : EdgeKeysNodup g) :
    max_inheritance_depth g = 0 ∨
      ∃ p, SimpleInhPath g p ∧ p.length - 1 = max_inheritance_depth g := by
  rw [mid_eq_foldl_max]
  rcases foldl_max_cases (inhDepthCandidates g) 0 with h | h
  · exact Or.inl h
  · right
    rcases mem_inhDepthCandidates.mp h with ⟨u, hu, v, hv, huv, p, hp, hinh, heq⟩
    obtain ⟨h1, h2, h3, h4, h5⟩ := simplePathsAux_sound g g.nodes.length u v [] p
      (List.not_mem_nil u) hp
    have hchS : List.Chain' (InhEdge g) p := (chain_pathAllInh_iff hk p).mp ⟨h5, hinh⟩
    have hmem : ∀ x ∈ p, x ∈ g.nodes := chain_inh_mem_nodes hc p u h1 hu hchS
    refine ⟨p, ⟨?_, h3, hmem, hchS⟩, heq.symm⟩
    intro hnil
    rw [hnil] at h1
    cases h1

/-- A list of length at most one that contains `w` is exactly `[w]`. -/
theorem len_le_one_mem {l : List String} {w : String} (hlen : l.length ≤ 1)
    (hw : w ∈ l) : l = [w] := by
  match l, hlen, hw with
  | [w'], _, hw =>
      rcases List.mem_singleton.mp hw with rfl
      rfl
  | w1 :: w2 :: t, hlen, _ => simp at hlen

/-- Completeness of the linear walk under single inheritance: every simple
inheritance chain starting at `u` is no longer than the walk from `u`. -/
theorem inh_walk_complete {g : DiGraph} (hdeg : ∀ u, (inhSuccessors g u).length ≤ 1) :
    ∀ (p : List String) (fuel : Nat) (u : String) (visited : List String),
      List.Chain' (InhEdge g) p → p.Nodup → p.head? = some u →
      (∀ x ∈ p, x ∈ visited → x = u) → p.length ≤ fuel + 1 →
      p.length - 1 ≤ inh_walk g fuel u visited
  | [], _, _, _ => by
      intro _ _ h1 _ _
      cases h1
  | [a], fuel, u, visited => by
      intro _ _ _ _ _
      simp
  | a :: b :: t, fuel, u, visited => by
      intro hch hnd h1 hvis hlen
      obtain rfl : a = u := by simpa using h1
      cases fuel with
      | zero => simp at hlen
      | succ f =>
          have hab : InhEdge g a b := (List.chain'_cons.mp hch).1
          have hbsucc : b ∈ inhSuccessors g a := mem_inhSuccessors_iff.mpr hab
          have hsingle : inhSuccessors g a = [b] := len_le_one_mem (hdeg a) hbsucc
          have hnotin : a ∉ b :: t := (List.nodup_cons.mp hnd).1
          have hba : b ≠ a := fun h => hnotin (h ▸ List.mem_cons_self b t)
          have hbvis : b ∉ visited := by
            intro hbv
            exact hba (hvis b (List.mem_cons_of_mem a (List.mem_cons_self b t)) hbv)
          have hstep : inh_walk g (f + 1) a visited =
              inh_walk g f b (b :: visited) + 1 := by
            simp only [inh_walk, hsingle, List.head?_cons, if_neg hbvis]
          rw [hstep]
          have htail : (b :: t).length - 1 ≤ inh_walk g f b (b :: visited) := by
            refine inh_walk_complete hdeg (b :: t) f b (b :: visited)
              (List.chain'_cons.mp hch).2 (List.nodup_cons.mp hnd).2 rfl ?_ ?_
            · intro x hx hxin
              rcases List.mem_cons.mp hxin with rfl | hxv
              · rfl
              · exact absurd hx ((hvis x (List.mem_cons_of_mem a hx) hxv) ▸ hnotin)
            · simpa using Nat.le_of_succ_le_succ hlen
          simpa using Nat.succ_le_succ htail

/-- Soundness of the linear walk: in a closed graph the walk from a node
realizes a simple inheritance chain of exactly its length. -/
theorem inh_walk_sound {g : DiGraph} (hc : Closed g) :
    ∀ (fuel : Nat) (u : String) (visited : List String), u ∈ g.nodes → u ∈ visited →
      ∃ p, p.head? = some u ∧ List.Chain' (InhEdge g) p ∧ p.Nodup ∧
        (∀ x ∈ p, x ∈ g.nodes) ∧ (∀ x ∈ p, x ∈ visited → x = u) ∧
        p.length - 1 = inh_walk g fuel u visited := by
  intro fuel
  induction fuel with
  | zero =>
      intro u visited hu _
      exact ⟨[u], rfl, List.chain'_singleton u, List.nodup_singleton u,
        fun x hx => by rcases List.mem_singleton.mp hx with rfl; exact hu,
        fun x hx _ => List.mem_singleton.mp hx, rfl⟩
  | succ fuel ih =>
      intro u visited hu huvis
      cases hsucc : (inhSuccessors g u).head? with
      | none =>
          refine ⟨[u], rfl, List.chain'_singleton u, List.nodup_singleton u,
            fun x hx => by rcases List.mem_singleton.mp hx with rfl; exact hu,
            fun x hx _ => List.mem_singleton.mp hx, ?_⟩
          simp [inh_walk, hsucc]
      | some w =>
          have hwsucc : w ∈ inhSuccessors g u := by
            have : w ∈ (inhSuccessors g u).head? := hsucc ▸ rfl
            exact List.mem_of_mem_head? this
          have huw : InhEdge g u w := mem_inhSuccessors_iff.mp hwsucc
          have hwnode : w ∈ g.nodes := by
            rcases huw with ⟨e, he, _, ht, _⟩
            exact ht ▸ (hc e he).2
          by_cases hwvis : w ∈ visited
          · refine ⟨[u], rfl, List.chain'_singleton u, List.nodup_singleton u,
              fun x hx => by rcases List.mem_singleton.mp hx with rfl; exact hu,
              fun x hx _ => List.mem_singleton.mp hx, ?_⟩
            simp [inh_walk, hsucc, hwvis]
          · obtain ⟨q, hq1, hq2, hq3, hq4, hq5, hq6⟩ :=
              ih w (w :: visited) hwnode (List.mem_cons_self w visited)
            have hqne : q ≠ [] := by
              intro h
              rw [h] at hq1
              cases hq1
            have huq : u ∉ q := by
              intro huq
              have := hq5 u huq (List.mem_cons_of_mem w huvis)
              exact hwvis (this ▸ huvis)
            refine ⟨u :: q, rfl, ?_, List.nodup_cons.mpr ⟨huq, hq3⟩, ?_, ?_, ?_⟩
            · refine List.Chain'.cons' hq2 ?_
              intro y hy
              rw [hq1] at hy
              have : w = y := by simpa using hy
              exact this ▸ huw
            · intro x hx
              rcases List.mem_cons.mp hx with rfl | hx
              · exact hu
              · exact hq4 x hx
            · intro x hx hxvis
              rcases List.mem_cons.mp hx with rfl | hx
              · rfl
              · exact absurd (hq5 x hx (List.mem_cons_of_mem w hxvis) ▸ hxvis) hwvis
            · have hlen : q.length = inh_walk g fuel w (w :: visited) + 1 := by
                cases q with
                | nil => exact absurd rfl hqne
                | cons b t =>
                    have ht : t.length = inh_walk g fuel w (w :: visited) := by
                      simpa using hq6
                    simp [ht]
              simp [inh_walk, hsucc, hwvis, hlen]

/-- The spec-modelled per-node walk maximum as a single `foldl max`. -/
theorem mlid_eq_foldl_max (g : DiGraph) :
    max_linear_inheritance_depth g =
      (g.nodes.map (fun u => inh_walk g g.nodes.length u [u])).foldl max 0 := by
  unfold max_linear_inheritance_depth
  rw [← flatMap_singleton_eq_map (fun u => inh_walk g g.nodes.length u [u]) g.nodes]
  exact foldl_max_transport (fun acc u => max acc (inh_walk g g.nodes.length u [u]))
    (fun u => [inh_walk g g.nodes.length u [u]]) (fun _ _ => rfl) g.nodes 0

/-- Every simple inheritance path's edge count is bounded by the maximum
linear walk depth, under single inheritance. -/
theorem mlid_upper {g : DiGraph} (hdeg : ∀ u, (inhSuccessors g u).length ≤ 1) :
    ∀ p, SimpleInhPath g p → p.length - 1 ≤ max_linear_inheritance_depth g := by
  intro p hp
  rcases hp with ⟨hne, hnd, hmem, hch⟩
  obtain ⟨u, hu⟩ : ∃ u, p.head? = some u := by
    cases p with
    | nil => exact absurd rfl hne
    | cons a q => exact ⟨a, rfl⟩
  have humem : u ∈ g.nodes := by
    refine hmem u ?_
    have : u ∈ p.head? := hu ▸ rfl
    exact List.mem_of_mem_head? this
  have hwalk : p.length - 1 ≤ inh_walk g g.nodes.length u [u] := by
    refine inh_walk_complete hdeg p g.nodes.length u [u] hch hnd hu ?_ ?_
    · intro x _ hx
      exact List.mem_singleton.mp hx
    · exact le_trans (nodup_length_le hnd hmem) (Nat.le_succ _)
  rw [mlid_eq_foldl_max]
  exact le_trans hwalk (mem_le_foldl_max _ 0 _
    (List.mem_map.mpr ⟨u, humem, rfl⟩))

/-- The maximum linear walk depth is zero or achieved by a simple
inheritance path, in a closed graph. -/
theorem mlid_achieved {g : DiGraph} (hc : Closed g) :
    max_linear_inheritance_depth g = 0 ∨
      ∃ p, SimpleInhPath g p ∧ p.length - 1 = max_linear_inheritance_depth g := by
  rw [mlid_eq_foldl_max]
  rcases foldl_max_cases (g.nodes.map (fun u => inh_walk g g.nodes.length u [u])) 0
    with h | h
  · exact Or.inl h
  · right
    rcases List.mem_map.mp h with ⟨u, hu, heq⟩
    obtain ⟨p, hp1, hp2, hp3, hp4, _, hp6⟩ :=
      inh_walk_sound hc g.nodes.length u [u] hu (List.mem_singleton.mpr rfl)
    refine ⟨p, ⟨?_, hp3, hp4, hp2⟩, by rw [hp6, heq]⟩
    intro hnil
    rw [hnil] at hp1
    cases hp1

/-- Two quantities that both bound all simple inheritance paths and are both
zero-or-achieved by one are equal. -/
theorem depth_char_unique {g : DiGraph} {k1 k2 : Nat}
    (h1u : ∀ p, SimpleInhPath g p → p.length - 1 ≤ k1)
    (h1a : k1 = 0 ∨ ∃ p, SimpleInhPath g p ∧ p.length - 1 = k1)
    (h2u : ∀ p, SimpleInhPath g p → p.length - 1 ≤ k2)
    (h2a : k2 = 0 ∨ ∃ p, SimpleInhPath g p ∧ p.length - 1 = k2) : k1 = k2 := by
  refine le_antisymm ?_ ?_
  · rcases h1a with rfl | ⟨p, hp, he⟩
    · exact Nat.zero_le k2
    · exact he ▸ h2u p hp
  · rcases h2a with rfl | ⟨p, hp, he⟩
    · exact Nat.zero_le k1
    · exact he ▸ h1u p hp

/-- `add_node` keeps the edge keys. -/
theorem keys_add_node {g : DiGraph} (n : String) (h : EdgeKeysNodup g) :
    EdgeKeysNodup (g.add_node n) := by
  unfold EdgeKeysNodup
  rw [add_node_edges]
  exact h

/-- `add_edge` preserves duplicate-free edge keys: an update keeps every key
in place and an append adds a key that was absent. -/
theorem keys_add_edge {g : DiGraph} (u v ty d : String) (h : EdgeKeysNodup g) :
    EdgeKeysNodup (g.add_edge u v ty d) := by
  have hg' : EdgeKeysNodup ((g.add_node u).add_node v) := keys_add_node v (keys_add_node u h)
  have hedges : ((g.add_node u).add_node v).edges = g.edges := by
    rw [add_node_edges, add_node_edges]
  unfold DiGraph.add_edge DiGraph.upsertEdge
  split
  · unfold EdgeKeysNodup at hg' ⊢
    show ((((g.add_node u).add_node v).edges.map (fun e =>
      if e.src == u && e.tgt == v then { e with etype := ty, details := d } else e)).map
        (fun e => (e.src, e.tgt))).Nodup
    have hfun : ∀ e ∈ ((g.add_node u).add_node v).edges,
        ((fun e : Edge => (e.src, e.tgt)) ∘ (fun e : Edge =>
          if e.src == u && e.tgt == v then { e with etype := ty, details := d } else e)) e =
          (fun e : Edge => (e.src, e.tgt)) e := by
      intro e _
      by_cases hkey : e.src = u ∧ e.tgt = v
      · simp [hkey]
      · simp [hkey]
    rw [List.map_map, List.map_congr_left hfun]
    exact hg'
  · next hany =>
      have hanyf : (((g.add_node u).add_node v).edges.any
          fun e => e.src == u && e.tgt == v) = false := by
        simpa using hany
      have hnotany := List.any_eq_false.mp hanyf
      unfold EdgeKeysNodup at hg' ⊢
      simp only [List.map_append, List.map_cons, List.map_nil]
      rw [List.nodup_append]
      refine ⟨hg', List.nodup_singleton _, ?_⟩
      intro k hk hk2
      rcases List.mem_singleton.mp hk2 with rfl
      rcases List.mem_map.mp hk with ⟨e, he, hke⟩
      have h1 : e.src = u ∧ e.tgt = v :=
        ⟨congrArg Prod.fst hke, congrArg Prod.snd hke⟩
      exact hnotany e he (by simp [h1.1, h1.2])

/-- Duplicate-free edge keys are preserved by `_analyze_field_relationships`. -/
theorem keys_afr (c : ClassDeclaration) {g : DiGraph} (h : EdgeKeysNodup g) :
    EdgeKeysNodup (analyze_field_relationships g c) := by
  unfold analyze_field_relationships
  refine foldl_preserves EdgeKeysNodup _ ?_ c.fields g h
  intro a f ha
  by_cases hp : is_primitive_or_common_type f.typeName
  · simpa [hp] using ha
  · by_cases hcm : is_composition_relationship f <;>
      simpa [hp, hcm] using keys_add_edge _ _ _ _ (keys_add_node _ ha)

/-- Duplicate-free edge keys are preserved by
`_analyze_method_relationships`. -/
theorem keys_amr (c : ClassDeclaration) {g : DiGraph} (h : EdgeKeysNodup g) :
    EdgeKeysNodup (analyze_method_relationships g c) := by
  unfold analyze_method_relationships
  refine foldl_preserves EdgeKeysNodup _ ?_ c.methods g h
  intro a m ha
  have hparams : ∀ (l : List FormalParameter) (a0 : DiGraph), EdgeKeysNodup a0 →
      EdgeKeysNodup (l.foldl (fun g p =>
        if is_primitive_or_common_type p.typeName then g
        else (g.add_node p.typeName).add_edge c.name p.typeName "Association"
          (c.name ++ " uses " ++ p.typeName)) a0) := by
    intro l a0 ha0
    refine foldl_preserves EdgeKeysNodup _ ?_ l a0 ha0
    intro a2 p ha2
    by_cases hp : is_primitive_or_common_type p.typeName
    · simpa [hp] using ha2
    · simpa [hp] using keys_add_edge _ _ _ _ (keys_add_node _ ha2)
  cases hrt : m.return_type with
  | none => simpa [hrt] using hparams m.parameters a ha
  | some rt =>
      by_cases hp : is_primitive_or_common_type rt
      · simpa [hrt, hp] using hparams m.parameters a ha
      · simpa [hrt, hp] using keys_add_edge _ _ _ _
          (keys_add_node _ (hparams m.parameters a ha))

/-- Duplicate-free edge keys are preserved by one class iteration. -/
theorem keys_class_step (c : ClassDeclaration) {g : DiGraph} (h : EdgeKeysNodup g) :
    EdgeKeysNodup (class_relationship_step g c) := by
  unfold class_relationship_step
  refine keys_amr c (keys_afr c ?_)
  have h1 : EdgeKeysNodup (class_node_step g c) := by
    unfold class_node_step
    split
    · exact h
    · exact keys_add_node _ h
  have h2 : EdgeKeysNodup (extends_step (class_node_step g c) c) := by
    unfold extends_step
    cases c.extends' with
    | none => exact h1
    | some parent => exact keys_add_edge _ _ _ _ (keys_add_node _ h1)
  unfold implements_step
  refine foldl_preserves EdgeKeysNodup _ ?_ c.implements _ h2
  intro a i ha
  exact keys_add_edge _ _ _ _ (keys_add_node _ ha)

/-- The relationship graph built from any class list has duplicate-free
edge keys. -/
theorem keys_analyze_class_relationships (classes : List ClassDeclaration) :
    EdgeKeysNodup (analyze_class_relationships DiGraph.empty classes) := by
  unfold analyze_class_relationships
  refine foldl_preserves EdgeKeysNodup _ ?_ classes DiGraph.empty List.nodup_nil
  intro a c ha
  exact keys_class_step c ha

end CallGraphAnalyzer

/-- C6.  For every built relationship graph: `total_classes` is the node
count and `total_dependencies` the edge count; `avg_dependencies` is their
exact ratio (`0` for an empty graph); the computed `max_inheritance_depth`
bounds every simple path through `Inheritance`-typed edges and is zero or
attained by one — i.e. it is the length of the longest such path; and the
exhaustive all-pairs simple-path enumeration agrees with the spec's
per-node linear inheritance-depth walk whenever each node has at most one
outgoing inheritance edge (the single-inheritance premise under which the
spec states the walk). -/
theorem C6_dependency_statistics (classes : List ClassDeclaration) (g : DiGraph)
    (hg : g = CallGraphAnalyzer.analyze_class_relationships DiGraph.empty classes) :
    (CallGraphAnalyzer.get_dependency_statistics g).total_classes = g.nodes.length
      ∧ (CallGraphAnalyzer.get_dependency_statistics g).total_dependencies = g.edges.length
      ∧ (CallGraphAnalyzer.get_dependency_statistics g).avg_dependencies =
          (if g.nodes.length = 0 then 0 else (g.edges.length : ℚ) / (g.nodes.length : ℚ))
      ∧ (∀ p, CallGraphAnalyzer.SimpleInhPath g p →
          p.length - 1 ≤
            (CallGraphAnalyzer.get_dependency_statistics g).max_inheritance_depth)
      ∧ ((CallGraphAnalyzer.get_dependency_statistics g).max_inheritance_depth = 0 ∨
          ∃ p, CallGraphAnalyzer.SimpleInhPath g p ∧
            p.length - 1 =
              (CallGraphAnalyzer.get_dependency_statistics g).max_inheritance_depth)
      ∧ ((∀ u, (CallGraphAnalyzer.inhSuccessors g u).length ≤ 1) →
          CallGraphAnalyzer.max_inheritance_depth g =
            CallGraphAnalyzer.max_linear_inheritance_depth g) := by
  have hc : CallGraphAnalyzer.Closed g := by
    rw [hg]
    exact CallGraphAnalyzer.closed_analyze_class_relationships classes
  have hk : CallGraphAnalyzer.EdgeKeysNodup g := by
    rw [hg]
    exact CallGraphAnalyzer.keys_analyze_class_relationships classes
  refine ⟨rfl, rfl, ?_, CallGraphAnalyzer.mid_upper hk,
    CallGraphAnalyzer.mid_achieved hc hk, ?_⟩
  · unfold CallGraphAnalyzer.get_dependency_statistics
    by_cases h0 : g.nodes.length = 0
    · simp [h0]
    · have hpos : 0 < g.nodes.length := Nat.pos_of_ne_zero h0
      simp [h0, hpos]
  · intro hdeg
    exact CallGraphAnalyzer.depth_char_unique
      (CallGraphAnalyzer.mid_upper hk) (CallGraphAnalyzer.mid_achieved hc hk)
      (CallGraphAnalyzer.mlid_upper hdeg) (CallGraphAnalyzer.mlid_achieved hc)

/-- C6 witness: on the chain `class C2x extends C1x {}`,
`class C3x extends C2x {}` (single inheritance), the statistics are three
classes, two dependencies, average two thirds, maximum inheritance depth 2,
and the linear walk agrees. -/
theorem C6_witness :
    (∀ u, (CallGraphAnalyzer.inhSuccessors
        (CallGraphAnalyzer.analyze_class_relationships DiGraph.empty statsClasses)
        u).length ≤ 1)
      ∧ (CallGraphAnalyzer.get_dependency_statistics
          (CallGraphAnalyzer.analyze_class_relationships DiGraph.empty
            statsClasses)).total_classes = 3
      ∧ (CallGraphAnalyzer.get_dependency_statistics
          (CallGraphAnalyzer.analyze_class_relationships DiGraph.empty
            statsClasses)).total_dependencies = 2
      ∧ (CallGraphAnalyzer.get_dependency_statistics
          (CallGraphAnalyzer.analyze_class_relationships DiGraph.empty
            statsClasses)).avg_dependencies = 2 / 3
      ∧ (CallGraphAnalyzer.get_dependency_statistics
          (CallGraphAnalyzer.analyze_class_relationships DiGraph.empty
            statsClasses)).max_inheritance_depth = 2
      ∧ CallGraphAnalyzer.max_linear_inheritance_depth
          (CallGraphAnalyzer.analyze_class_relationships DiGraph.empty statsClasses) = 2 := by
  have hedges : (CallGraphAnalyzer.analyze_class_relationships DiGraph.empty
      statsClasses).edges =
      [⟨"C2x", "C1x", "Inheritance", "C2x extends C1x"⟩,
       ⟨"C3x", "C2x", "Inheritance", "C3x extends C2x"⟩] := by
    decide
  have hdeg : ∀ u, (CallGraphAnalyzer.inhSuccessors
      (CallGraphAnalyzer.analyze_class_relationships DiGraph.empty statsClasses)
      u).length ≤ 1 := by
    intro u
    rcases eq_or_ne u "C2x" with rfl | h1
    · decide
    · rcases eq_or_ne u "C3x" with rfl | h2
      · decide
      · have hb1 : (("C2x" : String) == u) = false := by
          rw [beq_eq_false_iff_ne]
          exact Ne.symm h1
        have hb2 : (("C3x" : String) == u) = false := by
          rw [beq_eq_false_iff_ne]
          exact Ne.symm h2
        simp [CallGraphAnalyzer.inhSuccessors, hedges, List.filter_cons, hb1, hb2]
  have h := C6_dependency_statistics statsClasses _ rfl
  have h5 := h.2.2.2.2.2 hdeg
  have hmid : (CallGraphAnalyzer.get_dependency_statistics
      (CallGraphAnalyzer.analyze_class_relationships DiGraph.empty
        statsClasses)).max_inheritance_depth = 2 := by
    decide
  have havg : (CallGraphAnalyzer.get_dependency_statistics
      (CallGraphAnalyzer.analyze_class_relationships DiGraph.empty
        statsClasses)).avg_dependencies = 2 / 3 := by
    have hn : (CallGraphAnalyzer.analyze_class_relationships DiGraph.empty
        statsClasses).nodes = ["C2x", "C1x", "C3x"] := by decide
    rw [h.2.2.1, hn, hedges]
    norm_num
  refine ⟨hdeg, rfl, rfl, havg, hmid, ?_⟩
  rw [← h5]
  exact hmid

end CodeMXJ
